import Mathlib

set_option maxRecDepth 8000

namespace Werm

/-! Shallow embedding of src/inbound.c (the WebSocket inbound frame decoder)
    and src/session.c (the keystroke translator and the terminal filter) of
    the werm repository.  Bytes are naturals; C unsigned arithmetic is taken
    modulo 2 ^ 32 where the source can wrap around. -/

/-- Modulus of the C type unsigned int, the type of the counters in struct
    wts and of the decoder offsets. -/
def U32 : Nat := 4294967296

/-- The pong reply written to stdout on receipt of a ping frame: the static
    pongmsg array in inbound.c, bytes 0x8a 0x00. -/
def pongmsg : List Nat := [138, 0]

/-- Resumption state of fwrd_inbound_frames: the value of the state variable
    together with the globals (datalen, datpart, mask, unmaskof) that the
    corresponding phase reads on resume.  header is state 0, len1 is state L,
    ext16 is X, ext64 is Y, maskP is M, dataP is D, pong is P.  dead stands
    for abort(). -/
inductive Phase where
  | header
  | len1
  | ext16
  | ext64
  | maskP (datalen : Nat)
  | dataP (datalen datpart : Nat) (mask : List Nat) (unmaskof : Nat)
  | pong
  | dead
deriving DecidableEq

/-- Number of bytes forceinby must supply before the phase can advance. -/
def phaseReq : Phase → Nat
  | .header => 1
  | .len1 => 1
  | .ext16 => 2
  | .ext64 => 8
  | .maskP _ => 4
  | .dataP _ dp _ _ => dp
  | .pong => 0
  | .dead => 0

/-- memcpy of two wire bytes followed by ntohs: a big-endian 16-bit read. -/
def ntohs2 (b0 b1 : Nat) : Nat := b0 * 256 + b1

/-- memcpy of four wire bytes followed by ntohl: a big-endian 32-bit read. -/
def ntohl4 (b0 b1 b2 b3 : Nat) : Nat := ((b0 * 256 + b1) * 256 + b2) * 256 + b3

/-- The 64-bit extended payload length of case Y: two ntohl reads combined
    with datalen <<= 32 and datalen |= low. -/
def dlen64 (b0 b1 b2 b3 b4 b5 b6 b7 : Nat) : Nat :=
  (ntohl4 b0 b1 b2 b3) <<< 32 ||| ntohl4 b4 b5 b6 b7

/-- The unmask loop of case D: each byte is XORed with mask[unmaskof++] and
    unmaskof is wrapped with unmaskof &= 3.  Returns the unmasked bytes and
    the final unmaskof. -/
def unmaskAcc (mask : List Nat) : Nat → List Nat → List Nat × Nat
  | off, [] => ([], off)
  | off, b :: t =>
      let r := unmaskAcc mask ((off + 1) &&& 3) t
      ((b ^^^ mask.getD off 0) :: r.1, r.2)

/-- One phase transition of fwrd_inbound_frames, applied once forceinby has
    supplied exactly phaseReq bytes (the bs argument).  Returns the next
    phase and the bytes appended to dest by fdb_apnd.  The impossible cases
    (a byte list of the wrong length, or a dataP whose datpart is zero,
    which the source never constructs) map to dead. -/
def phaseStep : Phase → List Nat → Phase × List Nat
  | .header, [b] =>
      let op := b &&& 127
      if op = 0 ∨ op = 1 ∨ op = 2 then (.len1, [])
      else if op = 9 then (.pong, [])
      else (.header, [])
  | .len1, [b] =>
      if b &&& 128 = 0 then (.dead, [])
      else
        let n := b &&& 127
        if n = 126 then (.ext16, [])
        else if n = 127 then (.ext64, [])
        else (.maskP n, [])
  | .ext16, [b0, b1] => (.maskP (ntohs2 b0 b1), [])
  | .ext64, [b0, b1, b2, b3, b4, b5, b6, b7] =>
      (.maskP (dlen64 b0 b1 b2 b3 b4 b5 b6 b7), [])
  | .maskP dl, [m0, m1, m2, m3] =>
      if dl = 0 then (.header, [])
      else (.dataP dl (min 512 dl) [m0, m1, m2, m3] 0, [])
  | .dataP dl dp mask off, bs =>
      if dp = 0 then (.dead, [])
      else
        let u := unmaskAcc mask off bs
        let dl' := dl - dp
        (if dl' = 0 then .header else .dataP dl' (min 512 dl') mask u.2, u.1)
  | _, _ => (.dead, [])

/-- Result of one call of fwrd_inbound_frames: the final resumption phase,
    the bytes appended to dest, the bytes written to stdout (pong replies),
    and the bytes left buffered in buf[bfi..bfsz]. -/
structure RunRes where
  phase : Phase
  dest : List Nat
  pong : List Nat
  left : List Nat
deriving DecidableEq

/-- Fuel-indexed core of one fwrd_inbound_frames call.  The byte source
    (the bytes already buffered in buf followed by whatever the nonblocking
    stdin yields before it would block) is flattened into xs: mkeaval moves
    bytes from the front of xs in order, and the sizes of the individual
    read() results cannot change which bytes reach which phase.  When fewer
    than phaseReq bytes remain, mkeaval sees EAGAIN/EWOULDBLOCK/EINTR after
    buffering what is left and the call returns.  The fuel argument only
    forces termination; runCall below always supplies enough. -/
def runF : Nat → Phase → List Nat → RunRes
  | 0, p, xs => ⟨p, [], [], xs⟩
  | fuel + 1, p, xs =>
      match p with
      | .dead => ⟨.dead, [], [], xs⟩
      | .pong =>
          let r := runF fuel .header xs
          ⟨r.phase, r.dest, pongmsg ++ r.pong, r.left⟩
      | q =>
          if xs.length < phaseReq q then ⟨q, [], [], xs⟩
          else
            let s := phaseStep q (xs.take (phaseReq q))
            let r := runF fuel s.1 (xs.drop (phaseReq q))
            ⟨r.phase, s.2 ++ r.dest, r.pong, r.left⟩

/-- Fuel that runF needs to run a call to quiescence from phase p on xs. -/
def rank : Phase → Nat
  | .dead => 0
  | .pong => 2
  | _ => 1

/-- One call of the decoder loop, with sufficient fuel. -/
def runCall (p : Phase) (xs : List Nat) : RunRes :=
  runF (2 * xs.length + 3) p xs

/-- Decoder state that persists between calls of fwrd_inbound_frames: the
    resumption phase and the buffered unconsumed bytes buf[bfi..bfsz]. -/
structure InboundSt where
  phase : Phase
  queue : List Nat
deriving DecidableEq

/-- One call of fwrd_inbound_frames.  avail is the byte sequence the
    nonblocking stdin yields before reporting EAGAIN during this call.  The
    leading abort() check (state 0 with a nonempty buffer) maps to dead. -/
def fwrd_inbound_frames (st : InboundSt) (avail : List Nat) :
    InboundSt × List Nat × List Nat :=
  if st.phase = .header ∧ st.queue ≠ [] then (⟨.dead, st.queue⟩, [], [])
  else
    let r := runCall st.phase (st.queue ++ avail)
    (⟨r.phase, r.left⟩, r.dest, r.pong)

/-- Successive calls of fwrd_inbound_frames, one call per burst of available
    input bytes, with the dest and stdout bytes of all calls concatenated. -/
def fwrdCalls (st : InboundSt) (chunks : List (List Nat)) :
    InboundSt × List Nat × List Nat :=
  chunks.foldl
    (fun acc ch =>
      let r := fwrd_inbound_frames acc.1 ch
      (r.1, acc.2.1 ++ r.2.1, acc.2.2 ++ r.2.2))
    (st, [], [])

/-- A masked client-to-server data frame as handed to the encoder: FIN flag,
    opcode, the 4-byte mask, and the masked payload bytes (body) exactly as
    they appear on the wire. -/
structure Frame where
  fin : Bool
  opcode : Nat
  mask : List Nat
  body : List Nat
deriving DecidableEq

/-- A data frame the decoder accepts: opcode continuation, text or binary,
    a 4-byte mask, and a payload length encodable in 64 bits. -/
def Frame.wf (f : Frame) : Prop :=
  f.opcode < 3 ∧ f.mask.length = 4 ∧ f.body.length < 2 ^ 64

/-- Minimal wire encoding of the payload length, with the MASK bit (0x80)
    set on the first length byte as required of clients. -/
def lenBytes (L : Nat) : List Nat :=
  if L < 126 then [128 + L]
  else if L < 65536 then [254, L / 256 % 256, L % 256]
  else [255, L / 2 ^ 56 % 256, L / 2 ^ 48 % 256, L / 2 ^ 40 % 256,
        L / 2 ^ 32 % 256, L / 2 ^ 24 % 256, L / 2 ^ 16 % 256,
        L / 2 ^ 8 % 256, L % 256]

/-- Wire encoding of a frame. -/
def encodeFrame (f : Frame) : List Nat :=
  ((if f.fin then 128 else 0) + f.opcode) :: lenBytes f.body.length ++ f.mask ++ f.body

/-- Unmasking as the spec words it: byte at offset i of the payload is XORed
    with mask[i mod 4]; the parameter i is the offset of the first byte of
    the remaining payload. -/
def specUnmaskFrom (mask : List Nat) (i : Nat) : List Nat → List Nat
  | [] => []
  | b :: t => (b ^^^ mask.getD (i % 4) 0) :: specUnmaskFrom mask (i + 1) t

/-- The bytes one frame contributes to dest. -/
def framePayload (f : Frame) : List Nat := specUnmaskFrom f.mask 0 f.body

/-- Wire encoding of a frame sequence: the concatenated encodings. -/
def encodeFrames (fs : List Frame) : List Nat := (fs.map encodeFrame).join

/-! Embedding of session.c: struct wts, process_tty_out (terminal filter)
    and writetosubproccore (keystroke translator). -/

/-- The single mutable aggregate wts of session.c, restricted to the fields
    that writetosubproccore and process_tty_out read or write.  The two
    1024-byte buffers are total maps from index to byte so that the wrapped
    SAFEPTR stores can be stated exactly; indices never written hold 0, as
    in the zero-initialized C object.  dead records that errx or abort has
    terminated the process. -/
structure Wts where
  sendsigwin : Bool
  swrow : Nat
  swcol : Nat
  wsi : Nat
  winsize : Nat → Nat
  escp : Nat
  linebuf : Nat → Nat
  escbuf : Nat → Nat
  linesz : Nat
  linepos : Nat
  escsz : Nat
  altscren : Bool
  appcursor : Bool
  logfd : Bool
  rawlogfd : Bool
  dead : Bool

/-- The zero-initialized wts struct, as after testreset. -/
def initWts : Wts :=
  { sendsigwin := false, swrow := 0, swcol := 0, wsi := 0,
    winsize := fun _ => 0, escp := 0, linebuf := fun _ => 0,
    escbuf := fun _ => 0, linesz := 0, linepos := 0, escsz := 0,
    altscren := false, appcursor := false, logfd := false,
    rawlogfd := false, dead := false }

/-- Reduction modulo 2 ^ 32, the arithmetic of the unsigned counters. -/
def u32 (x : Nat) : Nat := x % U32

/-- Unsigned 32-bit subtraction with wraparound. -/
def u32sub (a b : Nat) : Nat := (a % U32 + (U32 - b % U32)) % U32

/-- The SAFEPTR macro of session.c for a one-byte store into a 1024-byte
    buffer: buf + start % (sizeof(buf) - regsz + 1), so the store index is
    start % 1024. -/
def safeIdx (start : Nat) : Nat := start % 1024

/-- Store one byte into a buffer map. -/
def bufSet (buf : Nat → Nat) (i v : Nat) : Nat → Nat :=
  fun j => if j = i then v else buf j

/-- isspace of the C locale. -/
def isSpc (b : Nat) : Bool := decide (b = 32 ∨ (9 ≤ b ∧ b ≤ 13))

/-- isdigit. -/
def isDig (b : Nat) : Bool := decide (48 ≤ b ∧ b ≤ 57)

/-- The escape-sequence literals tested by CONSUMEESC. -/
def escCSI : List Nat := [27, 91]

/-- ESC [ ? 1 -/
def escQ1 : List Nat := [27, 91, 63, 49]

/-- ESC [ ? 4 7 -/
def escQ47 : List Nat := [27, 91, 63, 52, 55]

/-- ESC [ ? 1 0 4 7 -/
def escQ1047 : List Nat := [27, 91, 63, 49, 48, 52, 55]

/-- ESC [ ? 1 0 4 9 -/
def escQ1049 : List Nat := [27, 91, 63, 49, 48, 52, 57]

/-- The guard of consumeesc in session.c: escsz equals the literal's length
    and the literal matches the first escsz bytes of escbuf (memcmp).  The
    accompanying escsz = 0 side effect is applied at each use site. -/
def consumeesc (s : Wts) (pref : List Nat) : Bool :=
  decide (s.escsz = pref.length) &&
    decide ((List.range pref.length).map s.escbuf = pref)

/-- Mnemonic bytes emitted by putroutraw for recognized screen switches. -/
def rawS1 : List Nat := [92, 115, 49]

/-- The alternate-screen mnemonic. -/
def rawS2 : List Nat := [92, 115, 50]

/-- Mnemonics for ESC [ ? 1049 h: save state, alternate screen, clear. -/
def raw1049on : List Nat := [92, 115, 115, 92, 115, 50, 92, 99, 108]

/-- Mnemonics for ESC [ ? 1049 l: primary screen, restore state. -/
def raw1049off : List Nat := [92, 115, 49, 92, 114, 115]

/-- hexdig of session.c: v &= 0x0f; v + (v < 10 ? the digit 0 : W). -/
def hexdig (v : Nat) : Nat :=
  (v &&& 15) + (if v &&& 15 < 10 then 48 else 87)

/-- putrout of session.c: the byte is masked to 8 bits; a backslash, a byte
    below the space character or above tilde becomes backslash plus two hex
    digits, anything else is copied. -/
def putrout (b : Nat) : List Nat :=
  let c := b &&& 255
  if c = 92 ∨ c < 32 ∨ 126 < c then [92, hexdig (c >>> 4), hexdig c]
  else [c]

/-- Whitespace skip of strtoul starting at index i, scanning at most fuel
    bytes.  The uses in deletechrahead stop at the final P byte, so a fuel
    of escsz is always enough. -/
def skipWs (buf : Nat → Nat) : Nat → Nat → Nat
  | i, 0 => i
  | i, fuel + 1 => if isSpc (buf i) then skipWs buf (i + 1) fuel else i

/-- Decimal digit run of strtoul from index i (value accumulator acc),
    scanning at most fuel digits; returns the value and the end index. -/
def digRun (buf : Nat → Nat) : Nat → Nat → Nat → Nat × Nat
  | i, 0, acc => (acc, i)
  | i, fuel + 1, acc =>
      if isDig (buf i) then digRun buf (i + 1) fuel (acc * 10 + (buf i - 48))
      else (acc, i)

/-- strtoul(escbuf + 2, &endptr, 10) as called by deletechrahead: skip
    whitespace, an optional sign, then a digit run; returns the value and
    the endptr index.  With no digits the end index is the start index 2
    (strtoul leaves endptr at nptr when nothing converts).  A minus sign
    wraps the value modulo 2 ^ 64 (unsigned long). -/
def strtoulAt (buf : Nat → Nat) (fuel : Nat) : Nat × Nat :=
  let i := skipWs buf 2 fuel
  let sgn := buf i
  let start := if sgn = 43 ∨ sgn = 45 then i + 1 else i
  if isDig (buf start) then
    let r := digRun buf start fuel 0
    (if sgn = 45 then (2 ^ 64 - r.1 % 2 ^ 64) % 2 ^ 64 else r.1, r.2)
  else (0, 2)

/-- deletechrahead of session.c: when escbuf holds ESC [ digits P, delete
    cnt characters of linebuf ahead of linepos (the source memmove,
    expressed as a map on indices). -/
def deletechrahead (s : Wts) : Wts :=
  if s.escsz < 4 then s
  else if s.escbuf (s.escsz - 1) ≠ 80 ∨ s.escbuf 1 ≠ 91 then s
  else
    let r := strtoulAt s.escbuf s.escsz
    if r.2 ≠ s.escsz - 1 then s
    else if s.linesz ≤ s.linepos + r.1 then s
    else
      let lsz := s.linesz - r.1
      { s with linesz := lsz,
               linebuf := fun j =>
                 if s.linepos ≤ j ∧ j < lsz then s.linebuf (j + r.1)
                 else s.linebuf j }

/-- The escape-accumulation and line-model tail of the process_tty_out loop
    body (everything after the CSI letter dispatch), returning the state
    and the bytes flushed to the text log. -/
def ttyTail (s : Wts) (b : Nat) : Wts × List Nat :=
  if b = 27 ∨ s.escsz ≠ 0 then
    let s1 := if b = 27 then { s with escsz := 0 } else s
    ({ s1 with escbuf := bufSet s1.escbuf (safeIdx s1.escsz) b,
               escsz := u32 (s1.escsz + 1) }, [])
  else
    let s1 := if b = 10 then { s with linepos := s.linesz } else s
    if b = 7 then (s1, [])
    else
      let s2 := { s1 with linebuf := bufSet s1.linebuf (safeIdx s1.linepos) b }
      let lp := u32 (s2.linepos + 1)
      let s3 := { s2 with linepos := lp,
                          linesz := if s2.linesz < lp then lp else s2.linesz }
      if b ≠ 10 ∧ s3.linesz < 1024 then (s3, [])
      else if 1024 < s3.linesz then ({ s3 with dead := true }, [])
      else
        ({ s3 with linesz := 0, linepos := 0 },
         if s3.logfd then (List.range s3.linesz).map s3.linebuf else [])

/-- The recognized-escape dispatch of the process_tty_out loop body: the
    uppercase CSI finals, the lowercase finals, and otherwise ttyTail.
    The state argument already has the BEL escape reset applied.  Returns
    the state, the text-log bytes, and the putroutraw mnemonic bytes. -/
def ttyCSI (s : Wts) (b : Nat) : Wts × List Nat × List Nat :=
  if 65 ≤ b ∧ b ≤ 90 ∧ consumeesc s escCSI then
    let s1 := { s with escsz := 0 }
    if b = 75 then ({ s1 with linesz := s1.linepos }, [], [])
    else if b = 65 then
      ({ s1 with linepos := u32sub s1.linepos s1.swcol % 1024 }, [], [])
    else if b = 67 then ({ s1 with linepos := u32 (s1.linepos + 1) }, [], [])
    else (s1, [], [])
  else if 97 ≤ b ∧ b ≤ 122 then
    if consumeesc s escQ1 then
      ({ s with escsz := 0, appcursor := decide (b = 104) }, [], [])
    else if consumeesc s escQ47 || consumeesc s escQ1047 then
      ({ s with escsz := 0, altscren := decide (b = 104) }, [],
       if b = 104 then rawS2 else rawS1)
    else if consumeesc s escQ1049 then
      ({ s with escsz := 0, altscren := decide (b = 104) }, [],
       if b = 104 then raw1049on else raw1049off)
    else if 1 < s.escsz ∧ s.escbuf 1 = 91 then
      ({ s with escsz := 0 }, [], [])
    else
      let t := ttyTail s b
      (t.1, t.2, [])
  else
    let t := ttyTail s b
    (t.1, t.2, [])

/-- The byte dispatch of the process_tty_out loop body, up to the eol
    label: CR, BS, the BEL escape reset, then the escape dispatch. -/
def ttyMain (s : Wts) (b : Nat) : Wts × List Nat × List Nat :=
  if b = 13 then
    ({ s with escsz := 0,
              linepos := if s.swcol ≠ 0 then s.linepos - s.linepos % s.swcol
                         else 0 }, [], [])
  else if b = 8 then
    ({ s with linepos := if s.linepos ≠ 0 then s.linepos - 1 else s.linepos },
     [], [])
  else ttyCSI (if b = 7 then { s with escsz := 0 } else s) b

/-- One iteration of the process_tty_out loop: the byte dispatch, then the
    eol epilogue (deletechrahead and putrout), skipped when errx has fired.
    Returns the state, the text-log bytes, and the client-bound bytes
    appended to rwoutbuf. -/
def ttyByte (s : Wts) (b : Nat) : Wts × List Nat × List Nat :=
  if s.dead then (s, [], [])
  else
    let m := ttyMain s b
    if m.1.dead then m
    else (deletechrahead m.1, m.2.1, m.2.2 ++ putrout b)

/-- The process_tty_out loop folded over the input bytes, threading the
    state and concatenating the text-log and client-bound output. -/
def ttyLoop (acc : Wts × List Nat × List Nat) (bs : List Nat) :
    Wts × List Nat × List Nat :=
  bs.foldl
    (fun a b =>
      let r := ttyByte a.1 b
      (r.1, a.2.1 ++ r.2.1, a.2.2 ++ r.2.2))
    acc

/-- process_tty_out of session.c on a byte list.  Returns the state after
    the call, the bytes written to the text log fd, the bytes written to
    the raw log fd, and the client-bound bytes accumulated in rwoutbuf
    during this call (rwoutlen is reset on entry; the source appends a
    final newline separator with putroutraw unless errx fired first). -/
def process_tty_out (s : Wts) (bs : List Nat) :
    Wts × List Nat × List Nat × List Nat :=
  let raw := if s.rawlogfd then bs else []
  let r := ttyLoop (s, [], []) bs
  (r.1, r.2.1, raw, if r.1.dead then r.2.2 else r.2.2 ++ [10])

/-- The cursor-movement table of case 1 in writetosubproccore: up, down,
    right, left, end, home; 0 for every byte with no cursor meaning. -/
def cursmv (b : Nat) : Nat :=
  if b = 94 then 65
  else if b = 118 then 66
  else if b = 62 then 67
  else if b = 60 then 68
  else if b = 101 then 70
  else if b = 104 then 72
  else 0

/-- Case 1 of writetosubproccore: the byte after a backslash. -/
def kescStep (s : Wts) (b : Nat) : Wts × List Nat :=
  let s0 := { s with escp := 0 }
  if b = 110 then (s0, [10])
  else if b = 92 then (s0, [92])
  else if b = 119 then ({ s0 with wsi := 0, escp := 119 }, [])
  else if b = 100 then (s0, [])
  else if b = 78 then (s0, [])
  else if cursmv b ≠ 0 then
    (s0, [27, if s.appcursor then 79 else 91, cursmv b])
  else (s0, [])

/-- The window-size accumulator bytes winsize[0..7]. -/
def winsizeList (s : Wts) : List Nat := (List.range 8).map s.winsize

/-- Leading-whitespace skip of one sscanf conversion. -/
def dropSpc : List Nat → List Nat
  | [] => []
  | b :: t => if isSpc b then dropSpc t else b :: t

/-- Digit run of one sscanf conversion, limited to w further characters;
    returns the accumulated value and the unconsumed rest. -/
def digRunL : List Nat → Nat → Nat → Nat × List Nat
  | l, 0, acc => (acc, l)
  | [], _ + 1, acc => (acc, [])
  | b :: t, w + 1, acc =>
      if isDig b then digRunL t w (acc * 10 + (b - 48)) else (acc, b :: t)

/-- One %4hu conversion of sscanf: skip whitespace, an optional sign (which
    counts against the width of 4), then up to the remaining width of
    decimal digits; a matching failure if no digit follows.  The stored
    value is reduced modulo 2 ^ 16 (unsigned short); a minus sign negates
    modulo 2 ^ 16 as the underlying strtoul conversion does. -/
def scanHU (l : List Nat) : Option (Nat × List Nat) :=
  match dropSpc l with
  | [] => none
  | b :: t =>
      if b = 45 then
        match t with
        | [] => none
        | c :: _ =>
            if isDig c then
              let r := digRunL t 3 0
              some ((65536 - r.1 % 65536) % 65536, r.2)
            else none
      else if b = 43 then
        match t with
        | [] => none
        | c :: _ =>
            if isDig c then
              let r := digRunL t 3 0
              some (r.1 % 65536, r.2)
            else none
      else if isDig b then
        let r := digRunL (b :: t) 4 0
        some (r.1 % 65536, r.2)
      else none

/-- Case w of writetosubproccore: accumulate a window-size byte; on the
    eighth, parse sscanf(winsize, the two hu conversions) into swrow and
    swcol, set sendsigwin when both convert, and return to raw mode. -/
def kwinStep (s : Wts) (b : Nat) : Wts × List Nat :=
  let s1 := { s with winsize := bufSet s.winsize s.wsi b, wsi := u32 (s.wsi + 1) }
  if s1.wsi ≠ 8 then (s1, [])
  else
    match scanHU (winsizeList s1) with
    | none => ({ s1 with sendsigwin := false, escp := 0 }, [])
    | some r1 =>
        match scanHU r1.2 with
        | none => ({ s1 with swrow := r1.1, sendsigwin := false, escp := 0 }, [])
        | some r2 =>
            ({ s1 with swrow := r1.1, swcol := r2.1, sendsigwin := true,
                       escp := 0 }, [])

/-- One byte of writetosubproccore: a literal newline is dropped in every
    mode; otherwise dispatch on the parser mode escp (0 raw, the digit one
    for escaped, w for window size; any other value is a fatal errx). -/
def kstrokeStep (s : Wts) (b : Nat) : Wts × List Nat :=
  if s.dead then (s, [])
  else if b = 10 then (s, [])
  else if s.escp = 0 then
    if b = 92 then ({ s with escp := 49 }, []) else (s, [b])
  else if s.escp = 49 then kescStep s b
  else if s.escp = 119 then kwinStep s b
  else ({ s with dead := true }, [])

/-- The writetosubproccore loop folded over the input, threading the state
    and accumulating the bytes written to outfd. -/
def kstrokeFold (acc : Wts × List Nat) (bs : List Nat) : Wts × List Nat :=
  bs.foldl
    (fun a b =>
      let r := kstrokeStep a.1 b
      (r.1, a.2 ++ r.2))
    acc

/-- writetosubproccore of session.c: reset sendsigwin, then translate each
    input byte, returning the final state and the bytes written to outfd.
    The kbuf coalescing of addkeybyte and finishkbuf only groups the
    write() calls and cannot change the byte sequence, so the bytes are
    returned as one list. -/
def writetosubproccore (s : Wts) (bs : List Nat) : Wts × List Nat :=
  kstrokeFold ({ s with sendsigwin := false }, []) bs

/-- The decoder state at attach time: state 0 with an empty buffer. -/
def initInbound : InboundSt := ⟨.header, []⟩

/-- Well-formedness of a frame sequence. -/
def wfFrames (fs : List Frame) : Prop := ∀ f ∈ fs, f.wf

/-- The state invariant between calls of fwrd_inbound_frames: if the
    decoder is at state 0 the buffer is empty (else the entry check
    aborts), and unless it died it stopped because the buffered bytes were
    too few for the pending phase. -/
def StInv (st : InboundSt) : Prop :=
  (st.phase = .header → st.queue = []) ∧
  (st.phase ≠ .dead →
    st.phase ≠ .pong ∧ st.queue.length < phaseReq st.phase)

/-- The keystroke-translator observables: the state components that
    writetosubproccore reads when computing its PTY bytes and sendsigwin
    (dead, escp, wsi, winsize, appcursor) together with sendsigwin itself,
    which it both reads back and reports. -/
def kObsEq (s1 s2 : Wts) : Prop :=
  s1.dead = s2.dead ∧ s1.escp = s2.escp ∧ s1.wsi = s2.wsi ∧
  s1.winsize = s2.winsize ∧ s1.appcursor = s2.appcursor ∧
  s1.sendsigwin = s2.sendsigwin

/-- Modelled from the spec: the lowercase hexadecimal digit of a nibble,
    digits 0 to 9 then a to f. -/
def lowercaseHexDigit (n : Nat) : Nat := if n < 10 then 48 + n else 87 + n

/-- Numeric value of four decimal digits d1 d2 d3 d4. -/
def val4 (n1 n2 n3 n4 : Nat) : Nat := ((n1 * 10 + n2) * 10 + n3) * 10 + n4

/-- The invariant the escape buffer really maintains: whenever the escape
    accumulator is nonempty and has not overrun the 1024-byte buffer, its
    first byte is ESC.  The bound escsz < 2 ^ 32 reflects the unsigned
    counter. -/
def escInv (s : Wts) : Prop :=
  s.escsz < U32 ∧ (0 < s.escsz → s.escsz ≤ 1024 → s.escbuf 0 = 27)

/-- First state of the C6 counterexample: window-size mode just entered. -/
def c6sA : Wts := { initWts with escp := 119 }

/-- Second state of the C6 counterexample: window-size mode with seven of
    the eight digits (all zeros) already accumulated. -/
def c6sB : Wts :=
  { initWts with escp := 119
                 wsi := 7
                 winsize := fun j => if j < 7 then 48 else 0 }

/-! Theorems.  First the claims over putrout, the terminal filter and the
    keystroke translator, then the frame-decoder development. -/

/-- C3: a byte between 0x20 and 0x7e other than the backslash passes
    through putrout unchanged; every other byte (the backslash included)
    becomes a backslash followed by the two lowercase hexadecimal digits
    of the byte. -/
theorem c3_putrout_encoding : ∀ b < 256,
    (32 ≤ b ∧ b ≤ 126 ∧ b ≠ 92 → putrout b = [b]) ∧
    (¬(32 ≤ b ∧ b ≤ 126 ∧ b ≠ 92) →
      putrout b = [92, lowercaseHexDigit (b / 16), lowercaseHexDigit (b % 16)]) := by
  decide

/-- Witness for c3_putrout_encoding at the bytes 0x41 and 0x07. -/
theorem c3_witness :
    putrout 65 = [65] ∧
    putrout 7 = [92, lowercaseHexDigit 0, lowercaseHexDigit 7] :=
  ⟨(c3_putrout_encoding 65 (by decide)).1 (by decide),
   (c3_putrout_encoding 7 (by decide)).2 (by decide)⟩

/-- C8: the literal session.c test line: feeding abcdef, then three
    backspace ESC [ K pairs, then xyz CR LF through process_tty_out from a
    fresh state with a text log configured writes the single log line
    abcxyz (with its terminating newline) to the log fd. -/
theorem c8_backspace_erase_log :
    (process_tty_out { initWts with logfd := true }
        [97, 98, 99, 100, 101, 102, 8, 27, 91, 75, 8, 27, 91, 75,
         8, 27, 91, 75, 120, 121, 122, 13, 10]).2.1
      = [97, 98, 99, 120, 121, 122, 10] := by
  decide

/-- C10: a literal newline byte in the client input is dropped by
    writetosubproccore in every parser mode, leaving the whole translator
    state unchanged and emitting nothing. -/
theorem c10_newline_dropped : ∀ s : Wts, kstrokeStep s 10 = (s, []) := by
  intro s
  simp [kstrokeStep]

/-- deletechrahead never touches the escape buffer, the escape size, or
    the dead flag. -/
theorem deletechrahead_frame (s : Wts) :
    (deletechrahead s).escbuf = s.escbuf ∧ (deletechrahead s).escsz = s.escsz ∧
    (deletechrahead s).dead = s.dead := by
  unfold deletechrahead
  dsimp only
  repeat' split
  all_goals exact ⟨rfl, rfl, rfl⟩

/-- deletechrahead is the identity when the escape buffer cannot hold a
    CSI digits P sequence. -/
theorem deletechrahead_id (s : Wts)
    (h : s.escsz < 4 ∨ s.escbuf (s.escsz - 1) ≠ 80 ∨ s.escbuf 1 ≠ 91) :
    deletechrahead s = s := by
  unfold deletechrahead
  rcases h with h | h
  · rw [if_pos h]
  · by_cases h4 : s.escsz < 4
    · rw [if_pos h4]
    · rw [if_neg h4, if_pos h]

/-- Unfolding one byte of the tty loop. -/
theorem ttyLoop_cons (a : Wts) (lg rw : List Nat) (b : Nat) (t : List Nat) :
    ttyLoop (a, lg, rw) (b :: t) =
      ttyLoop ((ttyByte a b).1, lg ++ (ttyByte a b).2.1,
               rw ++ (ttyByte a b).2.2) t := rfl

/-- The tty loop on no input. -/
theorem ttyLoop_nil (acc : Wts × List Nat × List Nat) : ttyLoop acc [] = acc := rfl

/-- The state component of process_tty_out is the folded loop state. -/
theorem process_tty_out_fst (s : Wts) (bs : List Nat) :
    (process_tty_out s bs).1 = (ttyLoop (s, [], []) bs).1 := rfl

/-- ttyTail writes escbuf only at the wrapped index escsz % 1024; indices
    at or above 1024 never change. -/
theorem ttyTail_escbuf_hi (s : Wts) (b j : Nat) (hj : 1024 ≤ j) :
    (ttyTail s b).1.escbuf j = s.escbuf j := by
  have hne : ∀ x : Nat, ¬(j = x % 1024) := by
    intro x
    have := Nat.mod_lt x (show 0 < 1024 by omega)
    omega
  have hj0 : j ≠ 0 := by omega
  unfold ttyTail
  by_cases h : b = 27 ∨ s.escsz ≠ 0
  · rw [if_pos h]
    by_cases h27 : b = 27
    all_goals simp [h27, bufSet, safeIdx, hne, hj0]
  · rw [if_neg h]
    dsimp only
    repeat' split
    all_goals rfl

/-- ttyCSI changes escbuf only through ttyTail, hence only below 1024. -/
theorem ttyCSI_escbuf_hi (s : Wts) (b j : Nat) (hj : 1024 ≤ j) :
    (ttyCSI s b).1.escbuf j = s.escbuf j := by
  have ht7 := ttyTail_escbuf_hi s b j hj
  unfold ttyCSI
  dsimp only
  split_ifs
  all_goals first
    | exact ht7
    | rfl

/-- ttyMain changes escbuf only below index 1024. -/
theorem ttyMain_escbuf_hi (s : Wts) (b j : Nat) (hj : 1024 ≤ j) :
    (ttyMain s b).1.escbuf j = s.escbuf j := by
  unfold ttyMain
  split_ifs
  all_goals first
    | rfl
    | (rw [ttyCSI_escbuf_hi _ b j hj]; try rfl)

/-- ttyByte changes escbuf only below index 1024. -/
theorem ttyByte_escbuf_hi (s : Wts) (b j : Nat) (hj : 1024 ≤ j) :
    (ttyByte s b).1.escbuf j = s.escbuf j := by
  unfold ttyByte
  split
  · rfl
  · dsimp only
    split
    · exact ttyMain_escbuf_hi s b j hj
    · dsimp only
      rw [(deletechrahead_frame _).1, ttyMain_escbuf_hi s b j hj]

/-- The loop preserves escbuf at indices at or above 1024. -/
theorem ttyLoop_escbuf_hi : ∀ (bs : List Nat) (s : Wts) (lg rw : List Nat)
    (j : Nat), 1024 ≤ j → (ttyLoop (s, lg, rw) bs).1.escbuf j = s.escbuf j := by
  intro bs
  induction bs with
  | nil => intro s lg rw j hj; rfl
  | cons b t ih =>
      intro s lg rw j hj
      rw [ttyLoop_cons, ih _ _ _ j hj, ttyByte_escbuf_hi s b j hj]

/-- C2 (amended): for every input and start state, every store into escbuf
    is performed at the wrapped index escsz % 1024, so the escape buffer
    is modified only inside its 1024 bytes; the sizes escsz and linesz
    themselves are not bounded by the buffer sizes (see the
    counterexample). -/
theorem c2_escbuf_stores_wrapped (s : Wts) (bs : List Nat) (j : Nat)
    (hj : 1024 ≤ j) : (process_tty_out s bs).1.escbuf j = s.escbuf j := by
  rw [process_tty_out_fst]
  exact ttyLoop_escbuf_hi bs s [] [] j hj

/-- Witness for c2_escbuf_stores_wrapped at index 1024 on a one-byte
    input. -/
theorem c2_witness :
    1024 ≤ 1024 ∧
    (process_tty_out initWts [27]).1.escbuf 1024 = initWts.escbuf 1024 :=
  ⟨by decide, c2_escbuf_stores_wrapped initWts [27] 1024 (by decide)⟩

/-- Processing the byte 0x21 while an overrun-free escape is pending
    appends it at the wrapped index and increments escsz. -/
theorem ttyByte_33 (s : Wts) (hd : s.dead = false) (h1 : 1 ≤ s.escsz)
    (h2 : s.escsz ≤ 1024) (h3 : 2 ≤ s.escsz → s.escbuf 1 = 33) :
    (ttyByte s 33).1 =
      { s with escbuf := bufSet s.escbuf (s.escsz % 1024) 33,
               escsz := s.escsz + 1 } := by
  have hu : u32 (s.escsz + 1) = s.escsz + 1 := by
    unfold u32 U32; omega
  have hmain : ttyMain s 33 =
      ({ s with escbuf := bufSet s.escbuf (s.escsz % 1024) 33,
                escsz := s.escsz + 1 }, [], []) := by
    unfold ttyMain ttyCSI ttyTail
    norm_num
    simp [show s.escsz ≠ 0 from by omega, safeIdx, hu]
  have hid : deletechrahead
      { s with escbuf := bufSet s.escbuf (s.escsz % 1024) 33,
               escsz := s.escsz + 1 } =
      { s with escbuf := bufSet s.escbuf (s.escsz % 1024) 33,
               escsz := s.escsz + 1 } := by
    apply deletechrahead_id
    by_cases h4 : s.escsz + 1 < 4
    · exact Or.inl h4
    · right
      by_cases hc : s.escsz < 1024
      · left
        show bufSet s.escbuf (s.escsz % 1024) 33 (s.escsz + 1 - 1) ≠ 80
        simp [bufSet, Nat.mod_eq_of_lt hc]
      · right
        show bufSet s.escbuf (s.escsz % 1024) 33 1 ≠ 91
        have h1024 : s.escsz = 1024 := by omega
        have h33 : s.escbuf 1 = 33 := h3 (by omega)
        simp [bufSet, h1024, h33]
  unfold ttyByte
  rw [if_neg (show ¬(s.dead = true) by simp [hd])]
  simp only [hmain]
  try dsimp only
  rw [if_neg (show ¬(s.dead = true) by simp [hd])]
  exact hid

/-- Feeding n copies of the byte 0x21 into a pending escape advances escsz
    by n; once escsz passes 1024 the wrapped store lands on index 0 and
    overwrites the leading ESC with 0x21. -/
theorem ttyLoop_app33 : ∀ (n : Nat) (s : Wts) (lg rw : List Nat),
    s.dead = false → 1 ≤ s.escsz → s.escsz + n ≤ 1025 →
    (2 ≤ s.escsz → s.escbuf 1 = 33) →
    (ttyLoop (s, lg, rw) (List.replicate n 33)).1.escsz = s.escsz + n ∧
    (ttyLoop (s, lg, rw) (List.replicate n 33)).1.escbuf 0 =
      (if s.escsz ≤ 1024 ∧ 1024 < s.escsz + n then 33 else s.escbuf 0) := by
  intro n
  induction n with
  | zero =>
      intro s lg rw hd h1 h2 h3
      refine ⟨show s.escsz = s.escsz + 0 by omega, ?_⟩
      rw [if_neg (by omega)]
      rfl
  | succ n ih =>
      intro s lg rw hd h1 h2 h3
      have hstep := ttyByte_33 s hd h1 (by omega) h3
      rw [List.replicate_succ, ttyLoop_cons, hstep]
      have h3' : 2 ≤ s.escsz + 1 → bufSet s.escbuf (s.escsz % 1024) 33 1 = 33 := by
        intro hge
        by_cases hc : s.escsz = 1
        · simp [bufSet, hc]
        · have hm1 : s.escsz % 1024 ≠ 1 := by
            rcases Nat.lt_or_ge s.escsz 1024 with hlt | hge2
            · rw [Nat.mod_eq_of_lt hlt]; omega
            · have he : s.escsz = 1024 := by omega
              simp [he]
          have h33 : s.escbuf 1 = 33 := h3 (by omega)
          simp [bufSet, Ne.symm hm1, h33]
      have key := ih { s with escbuf := bufSet s.escbuf (s.escsz % 1024) 33,
                              escsz := s.escsz + 1 }
        (lg ++ (ttyByte s 33).2.1) (rw ++ (ttyByte s 33).2.2)
        hd (show 1 ≤ s.escsz + 1 by omega) (show s.escsz + 1 + n ≤ 1025 by omega)
        h3'
      refine ⟨?_, ?_⟩
      · rw [key.1]
        show s.escsz + 1 + n = s.escsz + (n + 1)
        omega
      · rw [key.2]
        show (if s.escsz + 1 ≤ 1024 ∧ 1024 < s.escsz + 1 + n then 33
              else bufSet s.escbuf (s.escsz % 1024) 33 0) =
          (if s.escsz ≤ 1024 ∧ 1024 < s.escsz + (n + 1) then 33 else s.escbuf 0)
        by_cases h1024 : s.escsz = 1024
        · rw [if_neg (by omega), if_pos (by omega)]
          simp [bufSet, h1024]
        · by_cases hbig : 1024 < s.escsz + (n + 1)
          · rw [if_pos (by omega), if_pos (by omega)]
          · rw [if_neg (by omega), if_neg (by omega)]
            have hm0 : s.escsz % 1024 ≠ 0 := by
              rw [Nat.mod_eq_of_lt (by omega)]; omega
            simp [bufSet, Ne.symm hm0]

/-- The original claimed bound fails: an ESC followed by 1024 ordinary
    bytes leaves escsz at 1025, above sizeof escbuf. -/
theorem c2_counterexample :
    (process_tty_out initWts (27 :: List.replicate 1024 33)).1.escsz = 1025 := by
  have e1 : (ttyByte initWts 27).1.escsz = 1 := by decide
  have e2 : (ttyByte initWts 27).1.dead = false := by decide
  rw [process_tty_out_fst, ttyLoop_cons]
  have key := ttyLoop_app33 1024 (ttyByte initWts 27).1
    ([] ++ (ttyByte initWts 27).2.1) ([] ++ (ttyByte initWts 27).2.2)
    e2 (by simp [e1]) (by simp [e1]) (fun hh => absurd (e1 ▸ hh) (by decide))
  rw [key.1, e1]

/-- An ESC byte always discards the pending escape and restarts escbuf. -/
theorem ttyByte_esc (s : Wts) (hd : s.dead = false) :
    (ttyByte s 27).1.escsz = 1 ∧ (ttyByte s 27).1.escbuf 0 = 27 := by
  have hmain : ttyMain s 27 =
      ({ s with escbuf := bufSet s.escbuf 0 27, escsz := 1 }, [], []) := by
    unfold ttyMain ttyCSI ttyTail
    norm_num [safeIdx, u32, U32]
  have hid : deletechrahead
      { s with escbuf := bufSet s.escbuf 0 27, escsz := 1 } =
      { s with escbuf := bufSet s.escbuf 0 27, escsz := 1 } :=
    deletechrahead_id { s with escbuf := bufSet s.escbuf 0 27, escsz := 1 }
      (Or.inl (show (1 : Nat) < 4 by decide))
  unfold ttyByte
  rw [if_neg (show ¬(s.dead = true) by simp [hd])]
  simp only [hmain]
  try dsimp only
  rw [if_neg (show ¬(s.dead = true) by simp [hd])]
  rw [hid]
  exact ⟨rfl, rfl⟩

/-- ttyTail preserves the escape-buffer invariant. -/
theorem ttyTail_escInv (s : Wts) (b : Nat) (h : escInv s) :
    escInv (ttyTail s b).1 := by
  obtain ⟨hlt, hinv⟩ := h
  unfold ttyTail
  by_cases hb : b = 27 ∨ s.escsz ≠ 0
  · rw [if_pos hb]
    by_cases h27 : b = 27
    · subst h27
      dsimp only
      rw [if_pos rfl]
      refine ⟨show u32 (0 + 1) < U32 by decide, fun h0 hle => ?_⟩
      show bufSet s.escbuf (safeIdx 0) 27 0 = 27
      simp [bufSet, safeIdx]
    · have hne : s.escsz ≠ 0 := hb.resolve_left h27
      dsimp only
      rw [if_neg h27]
      refine ⟨show u32 (s.escsz + 1) < U32 by unfold u32 U32; omega,
        fun h0 hle => ?_⟩
      show bufSet s.escbuf (safeIdx s.escsz) b 0 = 27
      have h0' : 0 < u32 (s.escsz + 1) := h0
      have hle' : u32 (s.escsz + 1) ≤ 1024 := hle
      by_cases hov : s.escsz + 1 < U32
      · have hesz : u32 (s.escsz + 1) = s.escsz + 1 := Nat.mod_eq_of_lt hov
        rw [hesz] at hle'
        have hr : s.escsz % 1024 = s.escsz := Nat.mod_eq_of_lt (by omega)
        unfold bufSet safeIdx
        rw [hr, if_neg (by omega)]
        exact hinv (by omega) (by omega)
      · exfalso
        have hz : u32 (s.escsz + 1) = 0 := by
          have : s.escsz + 1 = U32 := by unfold U32 at *; omega
          unfold u32
          rw [this, Nat.mod_self]
        omega
  · rw [if_neg hb]
    push_neg at hb
    dsimp only
    repeat' split
    all_goals exact ⟨hlt, fun h0 hle => absurd (show 0 < s.escsz from h0)
      (by omega)⟩

/-- ttyCSI preserves the escape-buffer invariant. -/
theorem ttyCSI_escInv (s : Wts) (b : Nat) (h : escInv s) :
    escInv (ttyCSI s b).1 := by
  unfold ttyCSI
  dsimp only
  split_ifs
  all_goals first
    | exact ttyTail_escInv s b h
    | exact ⟨show (0 : Nat) < U32 by decide,
        fun h0 _ => absurd (show (0 : Nat) < 0 from h0) (by decide)⟩

/-- ttyMain preserves the escape-buffer invariant. -/
theorem ttyMain_escInv (s : Wts) (b : Nat) (h : escInv s) :
    escInv (ttyMain s b).1 := by
  unfold ttyMain
  split_ifs
  all_goals first
    | exact ⟨show (0 : Nat) < U32 by decide,
        fun h0 _ => absurd (show (0 : Nat) < 0 from h0) (by decide)⟩
    | exact ⟨h.1, h.2⟩
    | exact ttyCSI_escInv _ b ⟨show (0 : Nat) < U32 by decide, fun h0 _ =>
        absurd (show (0 : Nat) < 0 from h0) (by decide)⟩
    | exact ttyCSI_escInv s b h

/-- ttyByte preserves the escape-buffer invariant. -/
theorem ttyByte_escInv (s : Wts) (b : Nat) (h : escInv s) :
    escInv (ttyByte s b).1 := by
  unfold ttyByte
  split
  · exact h
  · dsimp only
    split
    · exact ttyMain_escInv s b h
    · have hf := deletechrahead_frame (ttyMain s b).1
      have hm := ttyMain_escInv s b h
      dsimp only
      constructor
      · rw [hf.2.1]; exact hm.1
      · intro h0 hle
        rw [hf.2.1] at h0 hle
        rw [hf.1]
        exact hm.2 h0 hle

/-- The loop preserves the escape-buffer invariant. -/
theorem ttyLoop_escInv : ∀ (bs : List Nat) (s : Wts) (lg rw : List Nat),
    escInv s → escInv (ttyLoop (s, lg, rw) bs).1 := by
  intro bs
  induction bs with
  | nil => intro s lg rw h; exact h
  | cons b t ih =>
      intro s lg rw h
      rw [ttyLoop_cons]
      exact ih _ _ _ (ttyByte_escInv s b h)

/-- C9 (amended): an ESC byte always discards any pending escape and
    restarts escbuf with ESC; consequently, from a fresh state, whenever
    0 < escsz ≤ 1024 (the escape has not overrun the buffer) the first
    escbuf byte is ESC.  Once escsz exceeds 1024 the wrapped store can
    overwrite escbuf[0], so the bound is required (see the
    counterexample). -/
theorem c9_escbuf_starts_with_esc :
    (∀ s : Wts, s.dead = false →
        (ttyByte s 27).1.escsz = 1 ∧ (ttyByte s 27).1.escbuf 0 = 27) ∧
    (∀ bs : List Nat, 0 < (process_tty_out initWts bs).1.escsz →
        (process_tty_out initWts bs).1.escsz ≤ 1024 →
        (process_tty_out initWts bs).1.escbuf 0 = 27) := by
  constructor
  · exact fun s hd => ttyByte_esc s hd
  · intro bs h0 hle
    have hinv := ttyLoop_escInv bs initWts [] []
      ⟨by decide, fun hh _ => absurd (show (0 : Nat) < 0 from hh) (by decide)⟩
    rw [process_tty_out_fst] at h0 hle ⊢
    exact hinv.2 h0 hle

/-- Witness for c9_escbuf_starts_with_esc at the fresh state and the
    one-byte ESC input. -/
theorem c9_witness :
    initWts.dead = false ∧
    ((ttyByte initWts 27).1.escsz = 1 ∧ (ttyByte initWts 27).1.escbuf 0 = 27) ∧
    (0 < (process_tty_out initWts [27]).1.escsz ∧
     (process_tty_out initWts [27]).1.escsz ≤ 1024 ∧
     (process_tty_out initWts [27]).1.escbuf 0 = 27) :=
  ⟨rfl, c9_escbuf_starts_with_esc.1 initWts rfl,
   by decide, by decide,
   c9_escbuf_starts_with_esc.2 [27] (by decide) (by decide)⟩

/-- The claimed invariant fails as stated: after an ESC and 1024 ordinary
    bytes, escsz is 1025 (nonzero) while escbuf[0] has been overwritten
    with 0x21, not ESC. -/
theorem c9_counterexample :
    0 < (process_tty_out initWts (27 :: List.replicate 1024 33)).1.escsz ∧
    (process_tty_out initWts (27 :: List.replicate 1024 33)).1.escbuf 0 = 33 := by
  have e1 : (ttyByte initWts 27).1.escsz = 1 := by decide
  have e2 : (ttyByte initWts 27).1.dead = false := by decide
  have e3 : (ttyByte initWts 27).1.escbuf 0 = 27 := by decide
  rw [process_tty_out_fst, ttyLoop_cons]
  have key := ttyLoop_app33 1024 (ttyByte initWts 27).1
    ([] ++ (ttyByte initWts 27).2.1) ([] ++ (ttyByte initWts 27).2.2)
    e2 (by simp [e1]) (by simp [e1]) (fun hh => absurd (e1 ▸ hh) (by decide))
  constructor
  · rw [key.1, e1]; decide
  · rw [key.2, if_pos (by rw [e1]; exact ⟨by decide, by decide⟩)]

/-- kescStep reads only the translator observables, so two states agreeing
    on them produce equal observables and equal output. -/
theorem kescStep_congr (s1 s2 : Wts) (h : kObsEq s1 s2) (b : Nat) :
    kObsEq (kescStep s1 b).1 (kescStep s2 b).1 ∧
    (kescStep s1 b).2 = (kescStep s2 b).2 := by
  obtain ⟨hdead, hescp, hwsi, hws, happ, hsig⟩ := h
  cases s1 with
  | mk sg1 r1 c1 w1 ws1 e1 lb1 eb1 lz1 lp1 ez1 al1 ap1 lf1 rf1 dd1 =>
  cases s2 with
  | mk sg2 r2 c2 w2 ws2 e2 lb2 eb2 lz2 lp2 ez2 al2 ap2 lf2 rf2 dd2 =>
  dsimp only at hdead hescp hwsi hws happ hsig
  subst hdead hescp hwsi hws happ hsig
  unfold kescStep kObsEq
  dsimp only
  split_ifs
  all_goals exact ⟨⟨rfl, rfl, rfl, rfl, rfl, rfl⟩, rfl⟩

/-- kwinStep reads only the translator observables. -/
theorem kwinStep_congr (s1 s2 : Wts) (h : kObsEq s1 s2) (b : Nat) :
    kObsEq (kwinStep s1 b).1 (kwinStep s2 b).1 ∧
    (kwinStep s1 b).2 = (kwinStep s2 b).2 := by
  obtain ⟨hdead, hescp, hwsi, hws, happ, hsig⟩ := h
  cases s1 with
  | mk sg1 r1 c1 w1 ws1 e1 lb1 eb1 lz1 lp1 ez1 al1 ap1 lf1 rf1 dd1 =>
  cases s2 with
  | mk sg2 r2 c2 w2 ws2 e2 lb2 eb2 lz2 lp2 ez2 al2 ap2 lf2 rf2 dd2 =>
  dsimp only at hdead hescp hwsi hws happ hsig
  subst hdead hescp hwsi hws happ hsig
  unfold kwinStep winsizeList kObsEq
  dsimp only
  split_ifs
  · exact ⟨⟨rfl, rfl, rfl, rfl, rfl, rfl⟩, rfl⟩
  · cases scanHU ((List.range 8).map (bufSet ws1 w1 b)) with
    | none => exact ⟨⟨rfl, rfl, rfl, rfl, rfl, rfl⟩, rfl⟩
    | some p =>
        dsimp only
        cases scanHU p.2 with
        | none => exact ⟨⟨rfl, rfl, rfl, rfl, rfl, rfl⟩, rfl⟩
        | some q => exact ⟨⟨rfl, rfl, rfl, rfl, rfl, rfl⟩, rfl⟩

/-- One byte of the keystroke translator preserves observable agreement
    and produces identical PTY bytes on observably equal states. -/
theorem kstrokeStep_congr (s1 s2 : Wts) (h : kObsEq s1 s2) (b : Nat) :
    kObsEq (kstrokeStep s1 b).1 (kstrokeStep s2 b).1 ∧
    (kstrokeStep s1 b).2 = (kstrokeStep s2 b).2 := by
  have hke := kescStep_congr s1 s2 h b
  have hkw := kwinStep_congr s1 s2 h b
  obtain ⟨hdead, hescp, hwsi, hws, happ, hsig⟩ := h
  unfold kstrokeStep
  rw [← hdead, ← hescp]
  split_ifs
  all_goals first
    | exact ⟨⟨hdead, hescp, hwsi, hws, happ, hsig⟩, rfl⟩
    | exact ⟨⟨rfl, rfl, hwsi, hws, happ, hsig⟩, rfl⟩
    | exact hke
    | exact hkw

/-- The translator loop preserves observable agreement and produces
    identical PTY byte streams. -/
theorem kstrokeFold_congr : ∀ (bs : List Nat) (s1 s2 : Wts) (o1 o2 : List Nat),
    kObsEq s1 s2 → o1 = o2 →
    kObsEq (kstrokeFold (s1, o1) bs).1 (kstrokeFold (s2, o2) bs).1 ∧
    (kstrokeFold (s1, o1) bs).2 = (kstrokeFold (s2, o2) bs).2 := by
  intro bs
  induction bs with
  | nil => intro s1 s2 o1 o2 h ho; exact ⟨h, ho⟩
  | cons b t ih =>
      intro s1 s2 o1 o2 h ho
      have hs := kstrokeStep_congr s1 s2 h b
      exact ih _ _ _ _ hs.1 (by rw [ho, hs.2])

/-- C6 (amended): the pair (PTY bytes, sendsigwin) of one
    writetosubproccore call is a pure function of the input bytes together
    with the appcursor flag, the parser mode escp, the window-size index
    wsi and the accumulated winsize bytes: two live states agreeing on
    those produce identical PTY bytes and an identical sendsigwin,
    regardless of any other prior state. -/
theorem c6_keystroke_output_determined (s1 s2 : Wts) (bs : List Nat)
    (hd1 : s1.dead = false) (hd2 : s2.dead = false)
    (hescp : s1.escp = s2.escp) (hwsi : s1.wsi = s2.wsi)
    (hws : s1.winsize = s2.winsize) (happ : s1.appcursor = s2.appcursor) :
    (writetosubproccore s1 bs).2 = (writetosubproccore s2 bs).2 ∧
    (writetosubproccore s1 bs).1.sendsigwin =
      (writetosubproccore s2 bs).1.sendsigwin := by
  have h0 : kObsEq { s1 with sendsigwin := false }
      { s2 with sendsigwin := false } :=
    ⟨hd1.trans hd2.symm, hescp, hwsi, hws, happ, rfl⟩
  have hc := kstrokeFold_congr bs { s1 with sendsigwin := false }
    { s2 with sendsigwin := false } [] [] h0 rfl
  exact ⟨hc.2, hc.1.2.2.2.2.2⟩

/-- Witness for c6_keystroke_output_determined: two states differing only
    in swrow give the same PTY bytes and sendsigwin on a one-byte input. -/
theorem c6_witness :
    initWts.dead = false ∧ ({ initWts with swrow := 5 } : Wts).dead = false ∧
    (writetosubproccore initWts [97]).2 =
      (writetosubproccore { initWts with swrow := 5 } [97]).2 ∧
    (writetosubproccore initWts [97]).1.sendsigwin =
      (writetosubproccore { initWts with swrow := 5 } [97]).1.sendsigwin :=
  ⟨rfl, rfl,
   c6_keystroke_output_determined initWts { initWts with swrow := 5 } [97]
     rfl rfl rfl rfl rfl rfl⟩

/-- One step of the writetosubproccore fold. -/
theorem kstrokeFold_cons (a : Wts) (o : List Nat) (b : Nat) (t : List Nat) :
    kstrokeFold (a, o) (b :: t) =
      kstrokeFold ((kstrokeStep a b).1, o ++ (kstrokeStep a b).2) t := rfl

/-- A digit extends the sscanf digit run when width remains. -/
theorem digRunL_cons {b : Nat} (t : List Nat) (w acc : Nat)
    (hb : isDig b = true) :
    digRunL (b :: t) (w + 1) acc = digRunL t w (acc * 10 + (b - 48)) := by
  rw [digRunL.eq_3, if_pos hb]

/-- The sscanf digit run stops at width zero. -/
theorem digRunL_zero (l : List Nat) (acc : Nat) :
    digRunL l 0 acc = (acc, l) := by
  cases l <;> rfl

/-- In raw mode a backslash byte enters escape mode. -/
theorem kstep_bs {sg : Bool} {rr cc ww : Nat} {ws lb eb : Nat → Nat}
    {lz lp ez : Nat} {al ap lf rf : Bool} :
    kstrokeStep ⟨sg, rr, cc, ww, ws, 0, lb, eb, lz, lp, ez, al, ap, lf, rf,
      false⟩ 92 =
    (⟨sg, rr, cc, ww, ws, 49, lb, eb, lz, lp, ez, al, ap, lf, rf, false⟩,
     []) := rfl

/-- In escape mode the byte w enters window-size mode and resets wsi. -/
theorem kstep_w {sg : Bool} {rr cc ww : Nat} {ws lb eb : Nat → Nat}
    {lz lp ez : Nat} {al ap lf rf : Bool} :
    kstrokeStep ⟨sg, rr, cc, ww, ws, 49, lb, eb, lz, lp, ez, al, ap, lf, rf,
      false⟩ 119 =
    (⟨sg, rr, cc, 0, ws, 119, lb, eb, lz, lp, ez, al, ap, lf, rf, false⟩,
     []) := rfl

/-- In window-size mode a non-final byte is stored at wsi, which then
    advances. -/
theorem kstep_digit {sg : Bool} {rr cc w : Nat} {ws lb eb : Nat → Nat}
    {lz lp ez : Nat} {al ap lf rf : Bool} {d w2 : Nat}
    (hne : d ≠ 10) (hu : u32 (w + 1) = w2) (h8 : w2 ≠ 8) :
    kstrokeStep ⟨sg, rr, cc, w, ws, 119, lb, eb, lz, lp, ez, al, ap, lf, rf,
      false⟩ d =
    (⟨sg, rr, cc, w2, bufSet ws w d, 119, lb, eb, lz, lp, ez, al, ap, lf, rf,
      false⟩, []) := by
  unfold kstrokeStep kwinStep
  rw [if_neg (show ¬(false = true) by decide), if_neg hne,
      if_neg (show ¬((119 : Nat) = 0) by decide),
      if_neg (show ¬((119 : Nat) = 49) by decide), if_pos rfl]
  dsimp only
  rw [hu, if_pos h8]

/-- In window-size mode a non-newline byte with wsi at 7 dispatches to the
    parse in kwinStep. -/
theorem kstep_digit_last {sg : Bool} {rr cc : Nat} {ws lb eb : Nat → Nat}
    {lz lp ez : Nat} {al ap lf rf : Bool} {d : Nat} (hne : d ≠ 10) :
    kstrokeStep ⟨sg, rr, cc, 7, ws, 119, lb, eb, lz, lp, ez, al, ap, lf, rf,
      false⟩ d =
    kwinStep ⟨sg, rr, cc, 7, ws, 119, lb, eb, lz, lp, ez, al, ap, lf, rf,
      false⟩ d := by
  unfold kstrokeStep
  rw [if_neg (show ¬(false = true) by decide), if_neg hne,
      if_neg (show ¬((119 : Nat) = 0) by decide),
      if_neg (show ¬((119 : Nat) = 49) by decide), if_pos rfl]

/-- One %4hu conversion on four digits followed by anything consumes
    exactly the four digits. -/
theorem scanHU_digits {a b c d : Nat} (rest : List Nat)
    (hsa : isSpc a = false) (hma : a ≠ 45) (hpa : a ≠ 43)
    (ha : isDig a = true) (hb : isDig b = true) (hc : isDig c = true)
    (hd : isDig d = true) :
    scanHU (a :: b :: c :: d :: rest) =
      some (((((0 * 10 + (a - 48)) * 10 + (b - 48)) * 10 + (c - 48)) * 10 +
        (d - 48)) % 65536, rest) := by
  unfold scanHU dropSpc
  rw [if_neg (show ¬(isSpc a = true) by rw [hsa]; decide)]
  dsimp only
  rw [if_neg hma, if_neg hpa, if_pos ha]
  try dsimp only
  rw [digRunL_cons _ _ _ ha, digRunL_cons _ _ _ hb, digRunL_cons _ _ _ hc,
      digRunL_cons _ _ _ hd, digRunL_zero]

/-- The eighth window-size byte triggers the sscanf parse; on eight digits
    both conversions succeed. -/
theorem kwinStep_parse {sg : Bool} {rr cc : Nat} {ws lb eb : Nat → Nat}
    {lz lp ez : Nat} {al ap lf rf : Bool} {d : Nat}
    {a1 a2 a3 a4 a5 a6 a7 a8 : Nat}
    (hlist : (List.range 8).map (bufSet ws 7 d) =
      [a1, a2, a3, a4, a5, a6, a7, a8])
    (hs1 : isSpc a1 = false) (hm1 : a1 ≠ 45) (hp1 : a1 ≠ 43)
    (hd1 : isDig a1 = true) (hd2 : isDig a2 = true) (hd3 : isDig a3 = true)
    (hd4 : isDig a4 = true)
    (hs5 : isSpc a5 = false) (hm5 : a5 ≠ 45) (hp5 : a5 ≠ 43)
    (hd5 : isDig a5 = true) (hd6 : isDig a6 = true) (hd7 : isDig a7 = true)
    (hd8 : isDig a8 = true) :
    kwinStep ⟨sg, rr, cc, 7, ws, 119, lb, eb, lz, lp, ez, al, ap, lf, rf,
      false⟩ d =
    (⟨true,
      ((((0 * 10 + (a1 - 48)) * 10 + (a2 - 48)) * 10 + (a3 - 48)) * 10 +
        (a4 - 48)) % 65536,
      ((((0 * 10 + (a5 - 48)) * 10 + (a6 - 48)) * 10 + (a7 - 48)) * 10 +
        (a8 - 48)) % 65536,
      u32 (7 + 1), bufSet ws 7 d, 0, lb, eb, lz, lp, ez, al, ap, lf, rf,
      false⟩, []) := by
  unfold kwinStep
  dsimp only
  rw [if_neg (show ¬(u32 (7 + 1) ≠ 8) by decide)]
  unfold winsizeList
  dsimp only
  rw [hlist, scanHU_digits _ hs1 hm1 hp1 hd1 hd2 hd3 hd4]
  dsimp only
  rw [scanHU_digits _ hs5 hm5 hp5 hd5 hd6 hd7 hd8]

set_option maxHeartbeats 1000000 in
/-- The whole backslash-w exchange on a destructured live state. -/
theorem c5_core {sg : Bool} {rr cc ww : Nat} {ws lb eb : Nat → Nat}
    {lz lp ez : Nat} {al ap lf rf : Bool} (n1 n2 n3 n4 n5 n6 n7 n8 : Nat)
    (g1 : n1 < 10) (g2 : n2 < 10) (g3 : n3 < 10) (g4 : n4 < 10)
    (g5 : n5 < 10) (g6 : n6 < 10) (g7 : n7 < 10) (g8 : n8 < 10) :
    kstrokeFold
      (⟨sg, rr, cc, ww, ws, 0, lb, eb, lz, lp, ez, al, ap, lf, rf, false⟩,
       [])
      [92, 119, 48 + n1, 48 + n2, 48 + n3, 48 + n4, 48 + n5, 48 + n6,
       48 + n7, 48 + n8] =
    (⟨true,
      ((((0 * 10 + (48 + n1 - 48)) * 10 + (48 + n2 - 48)) * 10 +
        (48 + n3 - 48)) * 10 + (48 + n4 - 48)) % 65536,
      ((((0 * 10 + (48 + n5 - 48)) * 10 + (48 + n6 - 48)) * 10 +
        (48 + n7 - 48)) * 10 + (48 + n8 - 48)) % 65536,
      u32 (7 + 1),
      bufSet (bufSet (bufSet (bufSet (bufSet (bufSet (bufSet (bufSet ws
        0 (48 + n1)) 1 (48 + n2)) 2 (48 + n3)) 3 (48 + n4)) 4 (48 + n5))
        5 (48 + n6)) 6 (48 + n7)) 7 (48 + n8),
      0, lb, eb, lz, lp, ez, al, ap, lf, rf, false⟩, []) := by
  have hdg : ∀ n, n < 10 → isDig (48 + n) = true := by
    intro n hn
    simp only [isDig, decide_eq_true_eq]
    omega
  have hsp : ∀ n, n < 10 → isSpc (48 + n) = false := by
    intro n hn
    simp only [isSpc, decide_eq_false_iff_not]
    omega
  have hne10 : ∀ n, n < 10 → 48 + n ≠ 10 := by intro n hn; omega
  have hne45 : ∀ n, n < 10 → 48 + n ≠ 45 := by intro n hn; omega
  have hne43 : ∀ n, n < 10 → 48 + n ≠ 43 := by intro n hn; omega
  rw [kstrokeFold_cons, kstep_bs]
  dsimp only
  rw [kstrokeFold_cons, kstep_w]
  dsimp only
  rw [kstrokeFold_cons,
    kstep_digit (hne10 n1 g1) (show u32 (0 + 1) = 1 by decide) (by decide)]
  dsimp only
  rw [kstrokeFold_cons,
    kstep_digit (hne10 n2 g2) (show u32 (1 + 1) = 2 by decide) (by decide)]
  dsimp only
  rw [kstrokeFold_cons,
    kstep_digit (hne10 n3 g3) (show u32 (2 + 1) = 3 by decide) (by decide)]
  dsimp only
  rw [kstrokeFold_cons,
    kstep_digit (hne10 n4 g4) (show u32 (3 + 1) = 4 by decide) (by decide)]
  dsimp only
  rw [kstrokeFold_cons,
    kstep_digit (hne10 n5 g5) (show u32 (4 + 1) = 5 by decide) (by decide)]
  dsimp only
  rw [kstrokeFold_cons,
    kstep_digit (hne10 n6 g6) (show u32 (5 + 1) = 6 by decide) (by decide)]
  dsimp only
  rw [kstrokeFold_cons,
    kstep_digit (hne10 n7 g7) (show u32 (6 + 1) = 7 by decide) (by decide)]
  dsimp only
  rw [kstrokeFold_cons, kstep_digit_last (hne10 n8 g8)]
  try dsimp only
  have hlist : (List.range 8).map (bufSet (bufSet (bufSet (bufSet (bufSet
      (bufSet (bufSet (bufSet ws 0 (48 + n1)) 1 (48 + n2)) 2 (48 + n3))
      3 (48 + n4)) 4 (48 + n5)) 5 (48 + n6)) 6 (48 + n7)) 7 (48 + n8)) =
      [48 + n1, 48 + n2, 48 + n3, 48 + n4, 48 + n5, 48 + n6, 48 + n7,
       48 + n8] := rfl
  rw [kwinStep_parse hlist
    (hsp n1 g1) (hne45 n1 g1) (hne43 n1 g1)
    (hdg n1 g1) (hdg n2 g2) (hdg n3 g3) (hdg n4 g4)
    (hsp n5 g5) (hne45 n5 g5) (hne43 n5 g5)
    (hdg n5 g5) (hdg n6 g6) (hdg n7 g7) (hdg n8 g8)]
  rfl

set_option maxHeartbeats 1000000 in
/-- C5: a backslash-w escape followed by any eight decimal digits parses
    the first four digits into swrow and the last four into swcol, sets
    sendsigwin, returns the parser to raw mode, and writes nothing to the
    PTY. -/
theorem c5_winsize_parse (s : Wts) (n1 n2 n3 n4 n5 n6 n7 n8 : Nat)
    (hd : s.dead = false) (he : s.escp = 0)
    (g1 : n1 < 10) (g2 : n2 < 10) (g3 : n3 < 10) (g4 : n4 < 10)
    (g5 : n5 < 10) (g6 : n6 < 10) (g7 : n7 < 10) (g8 : n8 < 10) :
    (writetosubproccore s [92, 119, 48 + n1, 48 + n2, 48 + n3, 48 + n4,
        48 + n5, 48 + n6, 48 + n7, 48 + n8]).1.sendsigwin = true ∧
    (writetosubproccore s [92, 119, 48 + n1, 48 + n2, 48 + n3, 48 + n4,
        48 + n5, 48 + n6, 48 + n7, 48 + n8]).1.swrow = val4 n1 n2 n3 n4 ∧
    (writetosubproccore s [92, 119, 48 + n1, 48 + n2, 48 + n3, 48 + n4,
        48 + n5, 48 + n6, 48 + n7, 48 + n8]).1.swcol = val4 n5 n6 n7 n8 ∧
    (writetosubproccore s [92, 119, 48 + n1, 48 + n2, 48 + n3, 48 + n4,
        48 + n5, 48 + n6, 48 + n7, 48 + n8]).2 = [] := by
  cases s with
  | mk sg rr cc ww ws ee lb eb lz lp ez al ap lf rf dd =>
  dsimp only at hd he
  subst hd he
  unfold writetosubproccore
  rw [show ({ (⟨sg, rr, cc, ww, ws, 0, lb, eb, lz, lp, ez, al, ap, lf, rf,
        false⟩ : Wts) with sendsigwin := false } : Wts) =
      ⟨false, rr, cc, ww, ws, 0, lb, eb, lz, lp, ez, al, ap, lf, rf, false⟩
    from rfl]
  rw [c5_core n1 n2 n3 n4 n5 n6 n7 n8 g1 g2 g3 g4 g5 g6 g7 g8]
  refine ⟨rfl, ?_, ?_, rfl⟩
  · show ((((0 * 10 + (48 + n1 - 48)) * 10 + (48 + n2 - 48)) * 10 +
      (48 + n3 - 48)) * 10 + (48 + n4 - 48)) % 65536 = val4 n1 n2 n3 n4
    unfold val4
    omega
  · show ((((0 * 10 + (48 + n5 - 48)) * 10 + (48 + n6 - 48)) * 10 +
      (48 + n7 - 48)) * 10 + (48 + n8 - 48)) % 65536 = val4 n5 n6 n7 n8
    unfold val4
    omega

/-- The parse at the concrete input of the claim, backslash-w 0 0 9 9 0 0
    1 1 from a fresh live state, with every hypothesis discharged. -/
theorem c5_witness :
    (writetosubproccore initWts [92, 119, 48 + 0, 48 + 0, 48 + 9, 48 + 9,
        48 + 0, 48 + 0, 48 + 1, 48 + 1]).1.sendsigwin = true ∧
    (writetosubproccore initWts [92, 119, 48 + 0, 48 + 0, 48 + 9, 48 + 9,
        48 + 0, 48 + 0, 48 + 1, 48 + 1]).1.swrow = val4 0 0 9 9 ∧
    (writetosubproccore initWts [92, 119, 48 + 0, 48 + 0, 48 + 9, 48 + 9,
        48 + 0, 48 + 0, 48 + 1, 48 + 1]).1.swcol = val4 0 0 1 1 ∧
    (writetosubproccore initWts [92, 119, 48 + 0, 48 + 0, 48 + 9, 48 + 9,
        48 + 0, 48 + 0, 48 + 1, 48 + 1]).2 = [] :=
  c5_winsize_parse initWts 0 0 9 9 0 0 1 1 rfl rfl (by decide) (by decide)
    (by decide) (by decide) (by decide) (by decide) (by decide) (by decide)

/-- The claim as stated is false: two runs that agree on the input bytes,
    the appcursor flag and the parser mode escp, but differ in the
    window-size accumulator index wsi and contents, produce different
    sendsigwin values. -/
theorem c6_counterexample :
    c6sA.escp = c6sB.escp ∧
    c6sA.appcursor = c6sB.appcursor ∧
    (writetosubproccore c6sA [49]).2 = (writetosubproccore c6sB [49]).2 ∧
    (writetosubproccore c6sA [49]).1.sendsigwin = false ∧
    (writetosubproccore c6sB [49]).1.sendsigwin = true :=
  ⟨rfl, rfl, by decide, by decide, by decide⟩

/-- Joining a left shift by 32 with a value below 2 ^ 32 is addition. -/
theorem shiftOr32 (a b : Nat) (hb : b < 2 ^ 32) :
    a <<< 32 ||| b = a * 2 ^ 32 + b := by
  rw [Nat.shiftLeft_eq, Nat.mul_comm]
  exact (Nat.mul_add_lt_is_or hb a).symm

/-- The two ntohl reads of case Y recompose any 64-bit value from its
    big-endian bytes. -/
theorem dlen64_be (v : Nat) (hv : v < 2 ^ 64) :
    dlen64 (v / 2 ^ 56 % 256) (v / 2 ^ 48 % 256) (v / 2 ^ 40 % 256)
      (v / 2 ^ 32 % 256) (v / 2 ^ 24 % 256) (v / 2 ^ 16 % 256)
      (v / 2 ^ 8 % 256) (v % 256) = v := by
  have hlo : ntohl4 (v / 2 ^ 24 % 256) (v / 2 ^ 16 % 256) (v / 2 ^ 8 % 256)
      (v % 256) < 2 ^ 32 := by
    unfold ntohl4
    omega
  unfold dlen64
  rw [shiftOr32 _ _ hlo]
  unfold ntohl4
  omega

/-- C4: for a masked frame, a 7-bit length field below 126 is the payload
    length itself; the value 126 routes to state X, which reads the next
    two bytes big-endian; the value 127 routes to state Y, which reads the
    next eight bytes big-endian, correctly over the whole 64-bit range. -/
theorem c4_payload_length_decoding (b b0 b1 v : Nat) (hb : b &&& 128 ≠ 0)
    (hv : v < 2 ^ 64) :
    (b &&& 127 < 126 →
      phaseStep .len1 [b] = (.maskP (b &&& 127), [])) ∧
    (b &&& 127 = 126 →
      phaseStep .len1 [b] = (.ext16, []) ∧
      phaseStep .ext16 [b0, b1] = (.maskP (b0 * 256 + b1), [])) ∧
    (b &&& 127 = 127 →
      phaseStep .len1 [b] = (.ext64, []) ∧
      phaseStep .ext64 [v / 2 ^ 56 % 256, v / 2 ^ 48 % 256, v / 2 ^ 40 % 256,
          v / 2 ^ 32 % 256, v / 2 ^ 24 % 256, v / 2 ^ 16 % 256,
          v / 2 ^ 8 % 256, v % 256] =
        (.maskP v, [])) := by
  refine ⟨?_, ?_, ?_⟩
  · intro h
    have h126 : ¬(b &&& 127 = 126) := by omega
    have h127 : ¬(b &&& 127 = 127) := by omega
    simp only [phaseStep]
    rw [if_neg hb, if_neg h126, if_neg h127]
  · intro h
    refine ⟨?_, rfl⟩
    simp only [phaseStep]
    rw [if_neg hb, if_pos h]
  · intro h
    have h126 : ¬(b &&& 127 = 126) := by omega
    refine ⟨?_, ?_⟩
    · simp only [phaseStep]
      rw [if_neg hb, if_neg h126, if_pos h]
    · rw [show phaseStep Phase.ext64 [v / 2 ^ 56 % 256, v / 2 ^ 48 % 256,
          v / 2 ^ 40 % 256, v / 2 ^ 32 % 256, v / 2 ^ 24 % 256,
          v / 2 ^ 16 % 256, v / 2 ^ 8 % 256, v % 256] =
          (Phase.maskP (dlen64 (v / 2 ^ 56 % 256) (v / 2 ^ 48 % 256)
            (v / 2 ^ 40 % 256) (v / 2 ^ 32 % 256) (v / 2 ^ 24 % 256)
            (v / 2 ^ 16 % 256) (v / 2 ^ 8 % 256) (v % 256)),
           ([] : List Nat)) from rfl,
        dlen64_be v hv]

/-- The length decoding at the masked length byte 0xfe (7-bit field 126),
    the extension bytes 1 and 2, and the 64-bit length 2 ^ 63 + 5. -/
theorem c4_witness :
    (254 &&& 127 < 126 →
      phaseStep .len1 [254] = (.maskP (254 &&& 127), [])) ∧
    (254 &&& 127 = 126 →
      phaseStep .len1 [254] = (.ext16, []) ∧
      phaseStep .ext16 [1, 2] = (.maskP (1 * 256 + 2), [])) ∧
    (254 &&& 127 = 127 →
      phaseStep .len1 [254] = (.ext64, []) ∧
      phaseStep .ext64 [(2 ^ 63 + 5) / 2 ^ 56 % 256,
          (2 ^ 63 + 5) / 2 ^ 48 % 256, (2 ^ 63 + 5) / 2 ^ 40 % 256,
          (2 ^ 63 + 5) / 2 ^ 32 % 256, (2 ^ 63 + 5) / 2 ^ 24 % 256,
          (2 ^ 63 + 5) / 2 ^ 16 % 256, (2 ^ 63 + 5) / 2 ^ 8 % 256,
          (2 ^ 63 + 5) % 256] =
        (.maskP (2 ^ 63 + 5), [])) :=
  c4_payload_length_decoding 254 1 2 (2 ^ 63 + 5) (by decide) (by decide)

/-- Equation of runF at a dead phase. -/
theorem runF_dead_eq (fuel : Nat) (xs : List Nat) :
    runF (fuel + 1) .dead xs = ⟨.dead, [], [], xs⟩ := rfl

/-- Equation of runF at a pong phase: write the pong reply and continue at
    the header state (the fall-through from case P to case 0). -/
theorem runF_pong_eq (fuel : Nat) (xs : List Nat) :
    runF (fuel + 1) .pong xs =
      ⟨(runF fuel .header xs).phase, (runF fuel .header xs).dest,
       pongmsg ++ (runF fuel .header xs).pong,
       (runF fuel .header xs).left⟩ := rfl

/-- Equation of runF at a working phase: starve when too few bytes remain,
    otherwise advance one phase transition. -/
theorem runF_go_eq (fuel : Nat) (p : Phase) (xs : List Nat)
    (h1 : p ≠ .dead) (h2 : p ≠ .pong) :
    runF (fuel + 1) p xs =
      if xs.length < phaseReq p then ⟨p, [], [], xs⟩
      else
        ⟨(runF fuel (phaseStep p (xs.take (phaseReq p))).1
            (xs.drop (phaseReq p))).phase,
         (phaseStep p (xs.take (phaseReq p))).2 ++
           (runF fuel (phaseStep p (xs.take (phaseReq p))).1
             (xs.drop (phaseReq p))).dest,
         (runF fuel (phaseStep p (xs.take (phaseReq p))).1
           (xs.drop (phaseReq p))).pong,
         (runF fuel (phaseStep p (xs.take (phaseReq p))).1
           (xs.drop (phaseReq p))).left⟩ := by
  cases p with
  | dead => exact absurd rfl h1
  | pong => exact absurd rfl h2
  | header => rfl
  | len1 => rfl
  | ext16 => rfl
  | ext64 => rfl
  | maskP dl => rfl
  | dataP dl dp mask off => rfl

/-- No phase ever needs more than rank 2 steps of bookkeeping. -/
theorem rank_le (p : Phase) : rank p ≤ 2 := by
  cases p <;> simp only [rank] <;> omega

/-- One phase transition strictly decreases the termination measure of the
    decoder loop. -/
theorem phaseStep_measure (q : Phase) (xs : List Nat) (h1 : q ≠ .dead)
    (h2 : q ≠ .pong) (hlen : phaseReq q ≤ xs.length) :
    2 * (xs.drop (phaseReq q)).length +
      rank (phaseStep q (xs.take (phaseReq q))).1 <
      2 * xs.length + rank q := by
  have hdrop : (xs.drop (phaseReq q)).length = xs.length - phaseReq q :=
    List.length_drop _ _
  have hr := rank_le (phaseStep q (xs.take (phaseReq q))).1
  cases q with
  | dead => exact absurd rfl h1
  | pong => exact absurd rfl h2
  | dataP dl dp mask off =>
      cases dp with
      | zero =>
          simp only [phaseReq] at hdrop hlen ⊢
          rw [show phaseStep (.dataP dl 0 mask off) (xs.take 0) = (.dead, [])
            from rfl]
          simp only [rank, List.drop_zero]
          omega
      | succ k =>
          simp only [rank, phaseReq] at hdrop hlen hr ⊢
          omega
  | header =>
      simp only [rank, phaseReq] at hdrop hlen hr ⊢
      omega
  | len1 =>
      simp only [rank, phaseReq] at hdrop hlen hr ⊢
      omega
  | ext16 =>
      simp only [rank, phaseReq] at hdrop hlen hr ⊢
      omega
  | ext64 =>
      simp only [rank, phaseReq] at hdrop hlen hr ⊢
      omega
  | maskP dl =>
      simp only [rank, phaseReq] at hdrop hlen hr ⊢
      omega

/-- Beyond the termination measure, one more unit of fuel changes nothing. -/
theorem runF_stable : ∀ fuel p xs, 2 * xs.length + rank p ≤ fuel →
    runF (fuel + 1) p xs = runF fuel p xs := by
  intro fuel
  induction fuel using Nat.strong_induction_on with
  | _ fuel ih =>
    intro p xs h
    cases fuel with
    | zero =>
        have hlen : xs.length = 0 := by
          have := rank_le p
          omega
        have hrank : rank p = 0 := by omega
        rw [List.length_eq_zero] at hlen
        subst hlen
        cases p with
        | dead => rfl
        | header => exact absurd hrank (by simp [rank])
        | len1 => exact absurd hrank (by simp [rank])
        | ext16 => exact absurd hrank (by simp [rank])
        | ext64 => exact absurd hrank (by simp [rank])
        | maskP dl => exact absurd hrank (by simp [rank])
        | dataP dl dp mask off => exact absurd hrank (by simp [rank])
        | pong => exact absurd hrank (by simp [rank])
    | succ g =>
        cases p with
        | dead => rfl
        | pong =>
            have hh : runF (g + 1) .header xs = runF g .header xs := by
              apply ih g (Nat.lt_succ_self g)
              simp only [rank] at h ⊢
              omega
            rw [runF_pong_eq (g + 1) xs, runF_pong_eq g xs, hh]
        | header =>
            rw [runF_go_eq (g + 1) (.header) xs (by simp) (by simp),
                runF_go_eq g (.header) xs (by simp) (by simp)]
            split_ifs with hlt
            · rfl
            · have hlen := Nat.le_of_not_lt hlt
              have hm := phaseStep_measure (.header) xs (by simp) (by simp) hlen
              have hb : 2 * (xs.drop (phaseReq (.header))).length +
                  rank (phaseStep (.header)
                    (xs.take (phaseReq (.header)))).1 ≤ g := by
                omega
              rw [ih g (Nat.lt_succ_self g) _ _ hb]
        | len1 =>
            rw [runF_go_eq (g + 1) (.len1) xs (by simp) (by simp),
                runF_go_eq g (.len1) xs (by simp) (by simp)]
            split_ifs with hlt
            · rfl
            · have hlen := Nat.le_of_not_lt hlt
              have hm := phaseStep_measure (.len1) xs (by simp) (by simp) hlen
              have hb : 2 * (xs.drop (phaseReq (.len1))).length +
                  rank (phaseStep (.len1)
                    (xs.take (phaseReq (.len1)))).1 ≤ g := by
                omega
              rw [ih g (Nat.lt_succ_self g) _ _ hb]
        | ext16 =>
            rw [runF_go_eq (g + 1) (.ext16) xs (by simp) (by simp),
                runF_go_eq g (.ext16) xs (by simp) (by simp)]
            split_ifs with hlt
            · rfl
            · have hlen := Nat.le_of_not_lt hlt
              have hm := phaseStep_measure (.ext16) xs (by simp) (by simp) hlen
              have hb : 2 * (xs.drop (phaseReq (.ext16))).length +
                  rank (phaseStep (.ext16)
                    (xs.take (phaseReq (.ext16)))).1 ≤ g := by
                omega
              rw [ih g (Nat.lt_succ_self g) _ _ hb]
        | ext64 =>
            rw [runF_go_eq (g + 1) (.ext64) xs (by simp) (by simp),
                runF_go_eq g (.ext64) xs (by simp) (by simp)]
            split_ifs with hlt
            · rfl
            · have hlen := Nat.le_of_not_lt hlt
              have hm := phaseStep_measure (.ext64) xs (by simp) (by simp) hlen
              have hb : 2 * (xs.drop (phaseReq (.ext64))).length +
                  rank (phaseStep (.ext64)
                    (xs.take (phaseReq (.ext64)))).1 ≤ g := by
                omega
              rw [ih g (Nat.lt_succ_self g) _ _ hb]
        | maskP dl =>
            rw [runF_go_eq (g + 1) (.maskP dl) xs (by simp) (by simp),
                runF_go_eq g (.maskP dl) xs (by simp) (by simp)]
            split_ifs with hlt
            · rfl
            · have hlen := Nat.le_of_not_lt hlt
              have hm := phaseStep_measure (.maskP dl) xs (by simp) (by simp) hlen
              have hb : 2 * (xs.drop (phaseReq (.maskP dl))).length +
                  rank (phaseStep (.maskP dl)
                    (xs.take (phaseReq (.maskP dl)))).1 ≤ g := by
                omega
              rw [ih g (Nat.lt_succ_self g) _ _ hb]
        | dataP dl dp mask off =>
            rw [runF_go_eq (g + 1) (.dataP dl dp mask off) xs (by simp) (by simp),
                runF_go_eq g (.dataP dl dp mask off) xs (by simp) (by simp)]
            split_ifs with hlt
            · rfl
            · have hlen := Nat.le_of_not_lt hlt
              have hm := phaseStep_measure (.dataP dl dp mask off) xs (by simp) (by simp) hlen
              have hb : 2 * (xs.drop (phaseReq (.dataP dl dp mask off))).length +
                  rank (phaseStep (.dataP dl dp mask off)
                    (xs.take (phaseReq (.dataP dl dp mask off)))).1 ≤ g := by
                omega
              rw [ih g (Nat.lt_succ_self g) _ _ hb]

/-- Adding fuel beyond the termination measure changes nothing. -/
theorem runF_add (k fuel : Nat) (p : Phase) (xs : List Nat)
    (h : 2 * xs.length + rank p ≤ fuel) :
    runF (fuel + k) p xs = runF fuel p xs := by
  induction k with
  | zero => rfl
  | succ k ih =>
      rw [show fuel + (k + 1) = (fuel + k) + 1 from rfl,
          runF_stable (fuel + k) p xs (by omega), ih]

/-- Any two sufficient fuels run the decoder call identically. -/
theorem runF_irrel (fuel1 fuel2 : Nat) (p : Phase) (xs : List Nat)
    (h1 : 2 * xs.length + rank p ≤ fuel1)
    (h2 : 2 * xs.length + rank p ≤ fuel2) :
    runF fuel1 p xs = runF fuel2 p xs := by
  rcases Nat.le_total fuel1 fuel2 with hle | hle
  · obtain ⟨k, rfl⟩ := Nat.le.dest hle
    rw [runF_add k fuel1 p xs h1]
  · obtain ⟨k, rfl⟩ := Nat.le.dest hle
    rw [runF_add k fuel2 p xs h2]

/-- An aborted decoder stays aborted and consumes nothing. -/
theorem runCall_dead (xs : List Nat) : runCall .dead xs = ⟨.dead, [], [], xs⟩ := by
  unfold runCall
  rw [show 2 * xs.length + 3 = (2 * xs.length + 2) + 1 from rfl, runF_dead_eq]

/-- A call resuming in state P writes the pong reply and continues as a
    fresh header read. -/
theorem runCall_pong (xs : List Nat) :
    runCall .pong xs =
      ⟨(runCall .header xs).phase, (runCall .header xs).dest,
       pongmsg ++ (runCall .header xs).pong, (runCall .header xs).left⟩ := by
  unfold runCall
  rw [show 2 * xs.length + 3 = (2 * xs.length + 2) + 1 from rfl, runF_pong_eq,
      runF_irrel (2 * xs.length + 2) (2 * xs.length + 3) .header xs
        (by simp only [rank]; omega) (by simp only [rank]; omega)]

/-- With fewer bytes than the phase needs, the call buffers them and
    returns (the read would block). -/
theorem runCall_starve (p : Phase) (xs : List Nat) (h1 : p ≠ .dead)
    (h2 : p ≠ .pong) (hlen : xs.length < phaseReq p) :
    runCall p xs = ⟨p, [], [], xs⟩ := by
  unfold runCall
  rw [show 2 * xs.length + 3 = (2 * xs.length + 2) + 1 from rfl,
      runF_go_eq _ p xs h1 h2, if_pos hlen]

/-- With enough bytes buffered, the call performs one phase transition and
    continues. -/
theorem runCall_go (p : Phase) (xs : List Nat) (h1 : p ≠ .dead)
    (h2 : p ≠ .pong) (hlen : phaseReq p ≤ xs.length) :
    runCall p xs =
      ⟨(runCall (phaseStep p (xs.take (phaseReq p))).1
          (xs.drop (phaseReq p))).phase,
       (phaseStep p (xs.take (phaseReq p))).2 ++
         (runCall (phaseStep p (xs.take (phaseReq p))).1
           (xs.drop (phaseReq p))).dest,
       (runCall (phaseStep p (xs.take (phaseReq p))).1
         (xs.drop (phaseReq p))).pong,
       (runCall (phaseStep p (xs.take (phaseReq p))).1
         (xs.drop (phaseReq p))).left⟩ := by
  unfold runCall
  rw [show 2 * xs.length + 3 = (2 * xs.length + 2) + 1 from rfl,
      runF_go_eq _ p xs h1 h2, if_neg (Nat.not_lt.mpr hlen)]
  have hd : (xs.drop (phaseReq p)).length = xs.length - phaseReq p :=
    List.length_drop _ _
  have hrk := rank_le (phaseStep p (xs.take (phaseReq p))).1
  rw [runF_irrel (2 * xs.length + 2)
      (2 * (xs.drop (phaseReq p)).length + 3)
      (phaseStep p (xs.take (phaseReq p))).1 (xs.drop (phaseReq p))
      (by omega) (by omega)]

/-- A call ends only aborted or starved: unless the decoder died, the
    resumption phase is a working phase and the buffered leftover is too
    short for it, so the return happened because a read would block. -/
theorem runCall_final : ∀ p xs,
    (runCall p xs).phase = .dead ∨
    ((runCall p xs).phase ≠ .pong ∧
     (runCall p xs).left.length < phaseReq (runCall p xs).phase) := by
  suffices H : ∀ m p xs, 2 * xs.length + rank p ≤ m →
      (runCall p xs).phase = .dead ∨
      ((runCall p xs).phase ≠ .pong ∧
       (runCall p xs).left.length < phaseReq (runCall p xs).phase) by
    intro p xs
    exact H (2 * xs.length + rank p) p xs (Nat.le_refl _)
  intro m
  induction m using Nat.strong_induction_on with
  | _ m ih =>
    intro p xs hm
    by_cases hd : p = .dead
    · subst hd
      rw [runCall_dead]
      left
      rfl
    by_cases hp : p = .pong
    · subst hp
      have hlt : 2 * xs.length + 1 < m := by
        simp only [rank] at hm
        omega
      have hh := ih (2 * xs.length + 1) hlt .header xs
        (by simp only [rank]; omega)
      rw [runCall_pong]
      dsimp only
      exact hh
    by_cases hlen : xs.length < phaseReq p
    · rw [runCall_starve p xs hd hp hlen]
      right
      exact ⟨hp, hlen⟩
    · have hlen2 := Nat.le_of_not_lt hlen
      rw [runCall_go p xs hd hp hlen2]
      have hmeas := phaseStep_measure p xs hd hp hlen2
      have hh := ih
        (2 * (xs.drop (phaseReq p)).length +
          rank (phaseStep p (xs.take (phaseReq p))).1)
        (by omega)
        (phaseStep p (xs.take (phaseReq p))).1 (xs.drop (phaseReq p))
        (Nat.le_refl _)
      dsimp only
      exact hh

/-- Feeding a call more bytes is the same as finishing the call and
    resuming on its leftover plus the extra bytes: the decoder is
    resumable at any point. -/
theorem runCall_comp : ∀ p xs ys,
    runCall p (xs ++ ys) =
      ⟨(runCall (runCall p xs).phase ((runCall p xs).left ++ ys)).phase,
       (runCall p xs).dest ++
         (runCall (runCall p xs).phase ((runCall p xs).left ++ ys)).dest,
       (runCall p xs).pong ++
         (runCall (runCall p xs).phase ((runCall p xs).left ++ ys)).pong,
       (runCall (runCall p xs).phase ((runCall p xs).left ++ ys)).left⟩ := by
  suffices H : ∀ m p xs, 2 * xs.length + rank p ≤ m → ∀ ys,
      runCall p (xs ++ ys) =
        ⟨(runCall (runCall p xs).phase ((runCall p xs).left ++ ys)).phase,
         (runCall p xs).dest ++
           (runCall (runCall p xs).phase ((runCall p xs).left ++ ys)).dest,
         (runCall p xs).pong ++
           (runCall (runCall p xs).phase ((runCall p xs).left ++ ys)).pong,
         (runCall (runCall p xs).phase ((runCall p xs).left ++ ys)).left⟩ by
    intro p xs ys
    exact H (2 * xs.length + rank p) p xs (Nat.le_refl _) ys
  intro m
  induction m using Nat.strong_induction_on with
  | _ m ih =>
    intro p xs hm ys
    by_cases hd : p = .dead
    · subst hd
      rw [runCall_dead xs]
      dsimp only
      rw [runCall_dead (xs ++ ys)]
      rfl
    by_cases hp : p = .pong
    · subst hp
      have hlt : 2 * xs.length + 1 < m := by
        simp only [rank] at hm
        omega
      have hrec := ih (2 * xs.length + 1) hlt .header xs
        (by simp only [rank]; omega) ys
      rw [runCall_pong xs]
      dsimp only
      rw [runCall_pong (xs ++ ys), hrec]
      dsimp only
      rw [List.append_assoc]
    by_cases hlen : xs.length < phaseReq p
    · rw [runCall_starve p xs hd hp hlen]
      dsimp only
      rw [List.nil_append, List.nil_append]
    · have hlen2 := Nat.le_of_not_lt hlen
      have hlen3 : phaseReq p ≤ (xs ++ ys).length := by
        rw [List.length_append]
        omega
      rw [runCall_go p xs hd hp hlen2, runCall_go p (xs ++ ys) hd hp hlen3,
          List.take_append_of_le_length hlen2,
          List.drop_append_of_le_length hlen2]
      dsimp only
      have hmeas := phaseStep_measure p xs hd hp hlen2
      have hrec := ih
        (2 * (xs.drop (phaseReq p)).length +
          rank (phaseStep p (xs.take (phaseReq p))).1)
        (by omega)
        (phaseStep p (xs.take (phaseReq p))).1 (xs.drop (phaseReq p))
        (Nat.le_refl _) ys
      rw [hrec]
      dsimp only
      rw [List.append_assoc]

/-- The unmask loop agrees with the specification wording: starting at a
    wrapped offset congruent to the payload offset i, each byte is XORed
    with mask[i mod 4], and the final offset is again wrapped. -/
theorem unmaskAcc_spec (mask : List Nat) : ∀ (body : List Nat) (i : Nat),
    unmaskAcc mask (i % 4) body =
      (specUnmaskFrom mask i body, (i + body.length) % 4) := by
  intro body
  induction body with
  | nil =>
      intro i
      simp [unmaskAcc, specUnmaskFrom]
  | cons b t ih =>
      intro i
      have h34 : (i % 4 + 1) &&& 3 = (i + 1) % 4 := by
        have := Nat.and_pow_two_sub_one_eq_mod (i % 4 + 1) 2
        norm_num at this
        omega
      show ((b ^^^ mask.getD (i % 4) 0) ::
              (unmaskAcc mask ((i % 4 + 1) &&& 3) t).1,
            (unmaskAcc mask ((i % 4 + 1) &&& 3) t).2) = _
      rw [h34, ih (i + 1)]
      simp only [specUnmaskFrom, List.length_cons]
      rw [show i + (t.length + 1) = i + 1 + t.length from by omega]

/-- Unmasking distributes over splitting the payload, with the offset
    advanced by the length of the first part. -/
theorem specUnmaskFrom_append (mask : List Nat) :
    ∀ (a b : List Nat) (i : Nat),
    specUnmaskFrom mask i (a ++ b) =
      specUnmaskFrom mask i a ++ specUnmaskFrom mask (i + a.length) b := by
  intro a
  induction a with
  | nil =>
      intro b i
      simp [specUnmaskFrom]
  | cons x t ih =>
      intro b i
      simp only [List.cons_append, specUnmaskFrom, List.append_eq, ih,
        List.length_cons]
      rw [show i + (t.length + 1) = i + 1 + t.length from by omega]

/-- The D arm of the phase switch, written out. -/
theorem phaseStep_dataP (dl dp : Nat) (mask : List Nat) (off : Nat)
    (bs : List Nat) (hdp : dp ≠ 0) :
    phaseStep (.dataP dl dp mask off) bs =
      (if dl - dp = 0 then .header
       else .dataP (dl - dp) (min 512 (dl - dp)) mask
         (unmaskAcc mask off bs).2,
       (unmaskAcc mask off bs).1) := by
  show (if dp = 0 then ((Phase.dead, ([] : List Nat))) else _) = _
  rw [if_neg hdp]

/-- The whole-payload run of state D: fed exactly the datalen remaining
    payload bytes, the decoder emits them unmasked in 512-byte parts and
    returns to the header state with nothing buffered. -/
theorem runCall_data : ∀ dl (body mask : List Nat) (i : Nat),
    body.length = dl → dl ≠ 0 →
    runCall (.dataP dl (min 512 dl) mask (i % 4)) body =
      ⟨.header, specUnmaskFrom mask i body, [], []⟩ := by
  intro dl
  induction dl using Nat.strong_induction_on with
  | _ dl ih =>
    intro body mask i hlen hdl
    have hmin1 : 1 ≤ min 512 dl := by omega
    have hle2 : phaseReq (.dataP dl (min 512 dl) mask (i % 4)) ≤
        body.length := by
      show min 512 dl ≤ body.length
      omega
    rw [runCall_go _ body (by simp) (by simp) hle2,
        phaseStep_dataP dl (min 512 dl) mask (i % 4) _ (by omega)]
    rw [show phaseReq (.dataP dl (min 512 dl) mask (i % 4)) = min 512 dl
      from rfl]
    dsimp only
    by_cases hc : dl ≤ 512
    · have hm512 : min 512 dl = dl := by omega
      have htake : body.take dl = body := by
        rw [← hlen]
        exact List.take_length body
      have hdrop : body.drop dl = [] := by
        rw [← hlen]
        exact List.drop_length body
      rw [hm512, if_pos (show dl - dl = 0 from by omega), htake, hdrop,
          unmaskAcc_spec mask body i]
      dsimp only
      rw [runCall_starve Phase.header [] (by simp) (by simp)
        (by simp [phaseReq])]
      rw [List.append_nil]
    · have hm512 : min 512 dl = 512 := by omega
      have htl : (body.take 512).length = 512 := by
        rw [List.length_take]
        omega
      rw [hm512, if_neg (show ¬(dl - 512 = 0) from by omega),
          unmaskAcc_spec mask (body.take 512) i, htl]
      dsimp only
      have hrec := ih (dl - 512) (by omega) (body.drop 512) mask (i + 512)
        (by rw [List.length_drop]; omega) (by omega)
      rw [show ((i + 512) % 4 : Nat) = (i + 512) % 4 from rfl] at hrec
      rw [hrec]
      dsimp only
      have hsplit := specUnmaskFrom_append mask (body.take 512)
        (body.drop 512) i
      rw [List.take_append_drop, htl] at hsplit
      rw [← hsplit]

/-- The low 7 bits of a byte with the mask bit added are the byte. -/
theorem land127 (L : Nat) (h : L < 128) : (128 + L) &&& 127 = L := by
  have h7 := Nat.and_pow_two_sub_one_eq_mod (128 + L) 7
  norm_num at h7
  omega

/-- The mask bit of a byte with the mask bit added is set. -/
theorem land128 (L : Nat) (h : L < 128) : (128 + L) &&& 128 = 128 := by
  have hb : (128 + L).testBit 7 = true := by
    rw [Nat.testBit_to_div_mod]
    simp only [decide_eq_true_eq]
    omega
  have h2 := Nat.and_two_pow (128 + L) 7
  rw [hb] at h2
  norm_num at h2
  exact h2

/-- A data-frame header byte (any FIN bit, opcode continuation, text or
    binary) advances the decoder to the length state. -/
theorem header_byte (fin : Bool) (op : Nat) (hop : op < 3) :
    phaseStep .header [(if fin then 128 else 0) + op] = (.len1, []) := by
  have h127 : ((if fin then 128 else 0) + op) &&& 127 = op := by
    cases fin
    · show (0 + op) &&& 127 = op
      rw [Nat.zero_add]
      have h7 := Nat.and_pow_two_sub_one_eq_mod op 7
      norm_num at h7
      omega
    · show (128 + op) &&& 127 = op
      exact land127 op (by omega)
  simp only [phaseStep]
  try dsimp only
  rw [h127, if_pos (show op = 0 ∨ op = 1 ∨ op = 2 from by omega)]

/-- The M arm of the phase switch on any 4-byte mask list. -/
theorem phaseStep_maskP (dl : Nat) (m : List Nat) (hm : m.length = 4) :
    phaseStep (.maskP dl) m =
      (if dl = 0 then (.header, [])
       else (.dataP dl (min 512 dl) m 0, [])) := by
  rcases m with _ | ⟨a, m⟩
  · simp only [List.length_nil] at hm
    omega
  rcases m with _ | ⟨b, m⟩
  · simp only [List.length_cons, List.length_nil] at hm
    omega
  rcases m with _ | ⟨c, m⟩
  · simp only [List.length_cons, List.length_nil] at hm
    omega
  rcases m with _ | ⟨d, m⟩
  · simp only [List.length_cons, List.length_nil] at hm
    omega
  rcases m with _ | ⟨e, m⟩
  · rfl
  · simp only [List.length_cons] at hm
    omega

/-- From the mask state, a 4-byte mask followed by exactly the payload
    runs the frame to completion. -/
theorem runCall_maskP_frame (L : Nat) (m body : List Nat)
    (hm : m.length = 4) (hL : body.length = L) :
    runCall (.maskP L) (m ++ body) =
      ⟨.header, specUnmaskFrom m 0 body, [], []⟩ := by
  have hlen4 : phaseReq (.maskP L) ≤ (m ++ body).length := by
    show 4 ≤ _
    rw [List.length_append]
    omega
  rw [runCall_go _ _ (by simp) (by simp) hlen4]
  have htake : (m ++ body).take (phaseReq (.maskP L)) = m := by
    show (m ++ body).take 4 = m
    rw [← hm]
    exact List.take_left _ _
  have hdrop : (m ++ body).drop (phaseReq (.maskP L)) = body := by
    show (m ++ body).drop 4 = body
    rw [← hm]
    exact List.drop_left _ _
  rw [htake, hdrop, phaseStep_maskP L m hm]
  by_cases h0 : L = 0
  · subst h0
    rw [if_pos rfl]
    dsimp only
    have hbody : body = [] := List.length_eq_zero.mp hL
    subst hbody
    rw [runCall_starve .header [] (by simp) (by simp) (by simp [phaseReq])]
    rfl
  · rw [if_neg h0]
    dsimp only
    have hdata := runCall_data L body m 0 hL h0
    rw [show ((0 : Nat) % 4) = 0 from rfl] at hdata
    rw [hdata]
    rfl

/-- From the length state, the wire length encoding, the mask and the
    payload of a frame run the frame to completion, for every payload
    length expressible in 64 bits. -/
theorem runCall_len_frame (L : Nat) (m body : List Nat)
    (hm : m.length = 4) (hL : body.length = L) (hbig : L < 2 ^ 64) :
    runCall .len1 (lenBytes L ++ m ++ body) =
      ⟨.header, specUnmaskFrom m 0 body, [], []⟩ := by
  by_cases h126 : L < 126
  · have hlb : lenBytes L = [128 + L] := by
      unfold lenBytes
      rw [if_pos h126]
    rw [hlb, show ([128 + L] ++ m) ++ body = (128 + L) :: (m ++ body)
      from by simp]
    rw [runCall_go .len1 _ (by simp) (by simp)
      (by simp [phaseReq])]
    rw [show ((128 + L) :: (m ++ body)).take (phaseReq .len1) = [128 + L]
        from rfl,
      show ((128 + L) :: (m ++ body)).drop (phaseReq .len1) = m ++ body
        from rfl]
    have hstep : phaseStep .len1 [128 + L] = (.maskP L, []) := by
      have hne : ¬((128 + L) &&& 128 = 0) := by
        rw [land128 L (by omega)]
        decide
      have h7 := land127 L (by omega)
      simp only [phaseStep]
      rw [if_neg hne]
      try dsimp only
      rw [h7, if_neg (show ¬(L = 126) from by omega),
          if_neg (show ¬(L = 127) from by omega)]
    rw [hstep]
    try dsimp only
    rw [runCall_maskP_frame L m body hm hL]
    rfl
  by_cases h65536 : L < 65536
  · have hlb : lenBytes L = [254, L / 256 % 256, L % 256] := by
      unfold lenBytes
      rw [if_neg h126, if_pos h65536]
    rw [hlb, show ([254, L / 256 % 256, L % 256] ++ m) ++ body =
      254 :: L / 256 % 256 :: L % 256 :: (m ++ body) from by simp]
    rw [runCall_go .len1 _ (by simp) (by simp) (by simp [phaseReq])]
    rw [show (254 :: L / 256 % 256 :: L % 256 :: (m ++ body)).take
          (phaseReq .len1) = [254] from rfl,
        show (254 :: L / 256 % 256 :: L % 256 :: (m ++ body)).drop
          (phaseReq .len1) = L / 256 % 256 :: L % 256 :: (m ++ body)
          from rfl,
        show phaseStep .len1 [254] = (.ext16, []) from by decide]
    try dsimp only
    rw [runCall_go .ext16 _ (by simp) (by simp) (by simp [phaseReq])]
    rw [show (L / 256 % 256 :: L % 256 :: (m ++ body)).take
          (phaseReq .ext16) = [L / 256 % 256, L % 256] from rfl,
        show (L / 256 % 256 :: L % 256 :: (m ++ body)).drop
          (phaseReq .ext16) = m ++ body from rfl,
        show phaseStep .ext16 [L / 256 % 256, L % 256] =
          (.maskP (ntohs2 (L / 256 % 256) (L % 256)), []) from rfl,
        show ntohs2 (L / 256 % 256) (L % 256) = L from by
          unfold ntohs2
          omega]
    try dsimp only
    rw [runCall_maskP_frame L m body hm hL]
    rfl
  · have hlb : lenBytes L = [255, L / 2 ^ 56 % 256, L / 2 ^ 48 % 256,
        L / 2 ^ 40 % 256, L / 2 ^ 32 % 256, L / 2 ^ 24 % 256,
        L / 2 ^ 16 % 256, L / 2 ^ 8 % 256, L % 256] := by
      unfold lenBytes
      rw [if_neg h126, if_neg h65536]
    rw [hlb, show ([255, L / 2 ^ 56 % 256, L / 2 ^ 48 % 256,
        L / 2 ^ 40 % 256, L / 2 ^ 32 % 256, L / 2 ^ 24 % 256,
        L / 2 ^ 16 % 256, L / 2 ^ 8 % 256, L % 256] ++ m) ++ body =
      255 :: L / 2 ^ 56 % 256 :: L / 2 ^ 48 % 256 :: L / 2 ^ 40 % 256 ::
        L / 2 ^ 32 % 256 :: L / 2 ^ 24 % 256 :: L / 2 ^ 16 % 256 ::
        L / 2 ^ 8 % 256 :: L % 256 :: (m ++ body) from by simp]
    rw [runCall_go .len1 _ (by simp) (by simp) (by simp [phaseReq])]
    rw [show (255 :: L / 2 ^ 56 % 256 :: L / 2 ^ 48 % 256 ::
          L / 2 ^ 40 % 256 :: L / 2 ^ 32 % 256 :: L / 2 ^ 24 % 256 ::
          L / 2 ^ 16 % 256 :: L / 2 ^ 8 % 256 :: L % 256 ::
          (m ++ body)).take (phaseReq .len1) = [255] from rfl,
        show (255 :: L / 2 ^ 56 % 256 :: L / 2 ^ 48 % 256 ::
          L / 2 ^ 40 % 256 :: L / 2 ^ 32 % 256 :: L / 2 ^ 24 % 256 ::
          L / 2 ^ 16 % 256 :: L / 2 ^ 8 % 256 :: L % 256 ::
          (m ++ body)).drop (phaseReq .len1) =
          L / 2 ^ 56 % 256 :: L / 2 ^ 48 % 256 :: L / 2 ^ 40 % 256 ::
          L / 2 ^ 32 % 256 :: L / 2 ^ 24 % 256 :: L / 2 ^ 16 % 256 ::
          L / 2 ^ 8 % 256 :: L % 256 :: (m ++ body) from rfl,
        show phaseStep .len1 [255] = (.ext64, []) from by decide]
    try dsimp only
    rw [runCall_go .ext64 _ (by simp) (by simp) (by simp [phaseReq])]
    rw [show (L / 2 ^ 56 % 256 :: L / 2 ^ 48 % 256 :: L / 2 ^ 40 % 256 ::
          L / 2 ^ 32 % 256 :: L / 2 ^ 24 % 256 :: L / 2 ^ 16 % 256 ::
          L / 2 ^ 8 % 256 :: L % 256 :: (m ++ body)).take
          (phaseReq .ext64) =
          [L / 2 ^ 56 % 256, L / 2 ^ 48 % 256, L / 2 ^ 40 % 256,
           L / 2 ^ 32 % 256, L / 2 ^ 24 % 256, L / 2 ^ 16 % 256,
           L / 2 ^ 8 % 256, L % 256] from rfl,
        show (L / 2 ^ 56 % 256 :: L / 2 ^ 48 % 256 :: L / 2 ^ 40 % 256 ::
          L / 2 ^ 32 % 256 :: L / 2 ^ 24 % 256 :: L / 2 ^ 16 % 256 ::
          L / 2 ^ 8 % 256 :: L % 256 :: (m ++ body)).drop
          (phaseReq .ext64) = m ++ body from rfl,
        show phaseStep .ext64 [L / 2 ^ 56 % 256, L / 2 ^ 48 % 256,
          L / 2 ^ 40 % 256, L / 2 ^ 32 % 256, L / 2 ^ 24 % 256,
          L / 2 ^ 16 % 256, L / 2 ^ 8 % 256, L % 256] =
          (.maskP (dlen64 (L / 2 ^ 56 % 256) (L / 2 ^ 48 % 256)
            (L / 2 ^ 40 % 256) (L / 2 ^ 32 % 256) (L / 2 ^ 24 % 256)
            (L / 2 ^ 16 % 256) (L / 2 ^ 8 % 256) (L % 256)), []) from rfl,
        dlen64_be L hbig]
    try dsimp only
    rw [runCall_maskP_frame L m body hm hL]
    rfl

/-- One well-formed masked data frame is consumed whole from the header
    state: its unmasked payload goes to dest, nothing else happens, and
    the decoder is back at the header state with an empty buffer. -/
theorem runCall_frame (f : Frame) (hwf : f.wf) :
    runCall .header (encodeFrame f) = ⟨.header, framePayload f, [], []⟩ := by
  obtain ⟨hop, hmask, hblen⟩ := hwf
  rw [show encodeFrame f = ((if f.fin then 128 else 0) + f.opcode) ::
      (lenBytes f.body.length ++ f.mask ++ f.body) from rfl]
  rw [runCall_go .header _ (by simp) (by simp) (by simp [phaseReq])]
  rw [show (((if f.fin then 128 else 0) + f.opcode) ::
        (lenBytes f.body.length ++ f.mask ++ f.body)).take
        (phaseReq .header) = [(if f.fin then 128 else 0) + f.opcode]
        from rfl,
      show (((if f.fin then 128 else 0) + f.opcode) ::
        (lenBytes f.body.length ++ f.mask ++ f.body)).drop
        (phaseReq .header) = lenBytes f.body.length ++ f.mask ++ f.body
        from rfl,
      header_byte f.fin f.opcode hop]
  try dsimp only
  rw [runCall_len_frame f.body.length f.mask f.body hmask rfl hblen]
  rfl

/-- A sequence of well-formed data frames runs to completion in one call:
    all unmasked payloads are delivered in order and the decoder is back
    at the header state with nothing buffered. -/
theorem runCall_frames : ∀ fs : List Frame, wfFrames fs →
    runCall .header (encodeFrames fs) =
      ⟨.header, (fs.map framePayload).join, [], []⟩ := by
  intro fs
  induction fs with
  | nil =>
      intro h
      rw [show encodeFrames [] = [] from rfl,
          runCall_starve .header [] (by simp) (by simp) (by simp [phaseReq])]
      rfl
  | cons f fs ih =>
      intro h
      have hf : f.wf := h f (by simp)
      have hfs : wfFrames fs := fun g hg => h g (by simp [hg])
      rw [show encodeFrames (f :: fs) = encodeFrame f ++ encodeFrames fs
            from by simp [encodeFrames],
          runCall_comp .header (encodeFrame f) (encodeFrames fs),
          runCall_frame f hf]
      dsimp only
      rw [List.nil_append, ih hfs]
      dsimp only
      rw [show ((f :: fs).map framePayload).join =
        framePayload f ++ (fs.map framePayload).join from by simp]
      rfl

/-- One fwrd_inbound_frames call, under the entry invariant, is the run
    of the decoder loop on the buffered plus newly available bytes. -/
theorem fwrd_run (st : InboundSt) (avail : List Nat)
    (hinv : st.phase = .header → st.queue = []) :
    fwrd_inbound_frames st avail =
      (⟨(runCall st.phase (st.queue ++ avail)).phase,
        (runCall st.phase (st.queue ++ avail)).left⟩,
       (runCall st.phase (st.queue ++ avail)).dest,
       (runCall st.phase (st.queue ++ avail)).pong) := by
  unfold fwrd_inbound_frames
  rw [if_neg (fun hc => hc.2 (hinv hc.1))]

/-- The state left by one call satisfies the invariant again. -/
theorem stinv_step (st : InboundSt) (avail : List Nat)
    (h : st.phase = .header → st.queue = []) :
    StInv (fwrd_inbound_frames st avail).1 := by
  rw [fwrd_run st avail h]
  dsimp only
  constructor
  · intro hph
    have hph2 : (runCall st.phase (st.queue ++ avail)).phase = Phase.header :=
      hph
    show (runCall st.phase (st.queue ++ avail)).left = []
    rcases runCall_final st.phase (st.queue ++ avail) with hdead | ⟨hnp, hlt⟩
    · rw [hph2] at hdead
      exact absurd hdead (by simp)
    · rw [hph2] at hlt
      have h0 : (runCall st.phase (st.queue ++ avail)).left.length = 0 := by
        simp only [phaseReq] at hlt
        omega
      exact List.length_eq_zero.mp h0
  · intro hnd
    have hnd2 : (runCall st.phase (st.queue ++ avail)).phase ≠ Phase.dead :=
      hnd
    rcases runCall_final st.phase (st.queue ++ avail) with hdead | ⟨hnp, hlt⟩
    · exact absurd hdead hnd2
    · exact ⟨hnp, hlt⟩

/-- The chunk fold with a nonempty accumulator just prepends it. -/
theorem fwrdCalls_shift : ∀ (chunks : List (List Nat)) (st : InboundSt)
    (d p : List Nat),
    chunks.foldl
      (fun acc ch =>
        ((fwrd_inbound_frames acc.1 ch).1,
         acc.2.1 ++ (fwrd_inbound_frames acc.1 ch).2.1,
         acc.2.2 ++ (fwrd_inbound_frames acc.1 ch).2.2))
      (st, d, p) =
      ((fwrdCalls st chunks).1, d ++ (fwrdCalls st chunks).2.1,
       p ++ (fwrdCalls st chunks).2.2) := by
  intro chunks
  induction chunks with
  | nil =>
      intro st d p
      simp [fwrdCalls]
  | cons ch t ih =>
      intro st d p
      simp only [fwrdCalls, List.foldl_cons]
      try dsimp only
      rw [ih (fwrd_inbound_frames st ch).1
            (d ++ (fwrd_inbound_frames st ch).2.1)
            (p ++ (fwrd_inbound_frames st ch).2.2),
          ih (fwrd_inbound_frames st ch).1
            ([] ++ (fwrd_inbound_frames st ch).2.1)
            ([] ++ (fwrd_inbound_frames st ch).2.2)]
      simp [List.append_assoc]

/-- Any number of calls on any chunking of the input behaves as the run
    of the decoder loop on the concatenated bytes. -/
theorem fwrdCalls_run : ∀ (chunks : List (List Nat)) (st : InboundSt),
    StInv st →
    fwrdCalls st chunks =
      (⟨(runCall st.phase (st.queue ++ chunks.join)).phase,
        (runCall st.phase (st.queue ++ chunks.join)).left⟩,
       (runCall st.phase (st.queue ++ chunks.join)).dest,
       (runCall st.phase (st.queue ++ chunks.join)).pong) := by
  intro chunks
  induction chunks with
  | nil =>
      intro st hst
      obtain ⟨hh, hrest⟩ := hst
      rw [show List.join ([] : List (List Nat)) = [] from rfl,
          List.append_nil]
      by_cases hd : st.phase = .dead
      · rw [hd, runCall_dead]
        dsimp only
        show (st, [], []) = (⟨Phase.dead, st.queue⟩, [], [])
        rw [show (⟨Phase.dead, st.queue⟩ : InboundSt) =
          ⟨st.phase, st.queue⟩ from by rw [hd]]
      · obtain ⟨hnp, hlt⟩ := hrest hd
        rw [runCall_starve st.phase st.queue hd hnp hlt]
        dsimp only
        show (st, [], []) = (⟨st.phase, st.queue⟩, [], [])
        rfl
  | cons ch t ih =>
      intro st hst
      have hfr := fwrd_run st ch hst.1
      have hst2 := stinv_step st ch hst.1
      rw [hfr] at hst2
      dsimp only at hst2
      simp only [fwrdCalls, List.foldl_cons]
      rw [hfr]
      dsimp only
      rw [List.nil_append, List.nil_append]
      rw [fwrdCalls_shift t
            ⟨(runCall st.phase (st.queue ++ ch)).phase,
             (runCall st.phase (st.queue ++ ch)).left⟩
            (runCall st.phase (st.queue ++ ch)).dest
            (runCall st.phase (st.queue ++ ch)).pong,
          ih _ hst2]
      dsimp only
      rw [show (ch :: t).join = ch ++ t.join from rfl,
          show st.queue ++ (ch ++ t.join) = (st.queue ++ ch) ++ t.join
            from (List.append_assoc _ _ _).symm,
          runCall_comp st.phase (st.queue ++ ch) t.join]

/-- C1: over every sequence of well-formed masked data frames and every
    chunking of the encoded byte stream into successive calls, the bytes
    appended to dest are exactly the concatenated unmasked payloads (each
    payload byte XORed with mask[i mod 4] at its payload offset i),
    independent of the chunking; the decoder finishes back at the fresh
    state with nothing else written. -/
theorem c1_chunking_independent (fs : List Frame) (chunks : List (List Nat))
    (hwf : wfFrames fs) (hch : chunks.join = encodeFrames fs) :
    (fwrdCalls initInbound chunks).2.1 = (fs.map framePayload).join ∧
    (fwrdCalls initInbound chunks).1 = initInbound ∧
    (fwrdCalls initInbound chunks).2.2 = [] := by
  have hinv : StInv initInbound := by
    constructor
    · intro _
      rfl
    · intro _
      constructor
      · simp [initInbound]
      · simp [initInbound, phaseReq]
  rw [fwrdCalls_run chunks initInbound hinv]
  dsimp only
  rw [show initInbound.queue ++ chunks.join = chunks.join from rfl,
      show initInbound.phase = Phase.header from rfl, hch,
      runCall_frames fs hwf]
  exact ⟨rfl, rfl, rfl⟩

/-- The chunking independence at one concrete frame (FIN, opcode 1, mask
    1 2 3 4, masked payload 5 6 7) split across three calls that cut the
    stream inside the header and inside the payload. -/
theorem c1_witness :
    wfFrames [⟨true, 1, [1, 2, 3, 4], [5, 6, 7]⟩] ∧
    List.join [[129], [131, 1, 2], [3, 4, 5, 6, 7]] =
      encodeFrames [⟨true, 1, [1, 2, 3, 4], [5, 6, 7]⟩] ∧
    ((fwrdCalls initInbound [[129], [131, 1, 2], [3, 4, 5, 6, 7]]).2.1 =
      ([⟨true, 1, [1, 2, 3, 4], [5, 6, 7]⟩].map framePayload).join ∧
     (fwrdCalls initInbound [[129], [131, 1, 2], [3, 4, 5, 6, 7]]).1 =
      initInbound ∧
     (fwrdCalls initInbound [[129], [131, 1, 2], [3, 4, 5, 6, 7]]).2.2 =
      []) := by
  refine ⟨(by
      intro f hf
      rw [List.mem_singleton] at hf
      subst hf
      exact ⟨by decide, by decide, by decide⟩), by decide, ?_⟩
  have h := c1_chunking_independent [⟨true, 1, [1, 2, 3, 4], [5, 6, 7]⟩]
    [[129], [131, 1, 2], [3, 4, 5, 6, 7]] (by
      intro f hf
      rw [List.mem_singleton] at hf
      subst hf
      exact ⟨by decide, by decide, by decide⟩) (by decide)
  exact ⟨h.1, h.2.1, h.2.2⟩

/-- C7: a call returns only when a further read would block (unless it
    aborted, the pending phase needs more bytes than remain buffered); a
    partial frame is resumed by the next call exactly where it stopped, so
    two successive calls deliver the same dest bytes as one call seeing
    all the input; and all complete frames available are consumed, their
    unmasked payloads all delivered. -/
theorem c7_would_block_and_resume (st : InboundSt) (a1 a2 : List Nat)
    (fs : List Frame) (hinv : st.phase = .header → st.queue = [])
    (hwf : wfFrames fs) :
    ((fwrd_inbound_frames st a1).1.phase ≠ .dead →
      (fwrd_inbound_frames st a1).1.queue.length <
        phaseReq (fwrd_inbound_frames st a1).1.phase) ∧
    (fwrd_inbound_frames st (a1 ++ a2)).2.1 =
      (fwrd_inbound_frames st a1).2.1 ++
        (fwrd_inbound_frames (fwrd_inbound_frames st a1).1 a2).2.1 ∧
    fwrd_inbound_frames initInbound (encodeFrames fs) =
      (initInbound, (fs.map framePayload).join, []) := by
  refine ⟨?_, ?_, ?_⟩
  · intro hnd
    rw [fwrd_run st a1 hinv] at hnd ⊢
    dsimp only at hnd ⊢
    rcases runCall_final st.phase (st.queue ++ a1) with hdead | ⟨_, hlt⟩
    · exact absurd hdead hnd
    · exact hlt
  · have hst2 := stinv_step st a1 hinv
    rw [fwrd_run st a1 hinv] at hst2
    dsimp only at hst2
    rw [fwrd_run st a1 hinv, fwrd_run st (a1 ++ a2) hinv]
    dsimp only
    rw [fwrd_run _ a2 hst2.1]
    dsimp only
    rw [show st.queue ++ (a1 ++ a2) = (st.queue ++ a1) ++ a2
          from (List.append_assoc _ _ _).symm,
        runCall_comp st.phase (st.queue ++ a1) a2]
  · rw [fwrd_run initInbound (encodeFrames fs) (fun _ => rfl),
        show initInbound.queue ++ encodeFrames fs = encodeFrames fs
          from rfl,
        show initInbound.phase = Phase.header from rfl,
        runCall_frames fs hwf]
    rfl

/-- The return and resumption behaviour at a concrete split: the frame of
    c1 cut after its first two bytes, resumed by a second call. -/
theorem c7_witness :
    ((fwrd_inbound_frames initInbound [129, 131]).1.phase ≠ .dead →
      (fwrd_inbound_frames initInbound [129, 131]).1.queue.length <
        phaseReq (fwrd_inbound_frames initInbound [129, 131]).1.phase) ∧
    (fwrd_inbound_frames initInbound
        ([129, 131] ++ [1, 2, 3, 4, 5, 6, 7])).2.1 =
      (fwrd_inbound_frames initInbound [129, 131]).2.1 ++
        (fwrd_inbound_frames
          (fwrd_inbound_frames initInbound [129, 131]).1
          [1, 2, 3, 4, 5, 6, 7]).2.1 ∧
    fwrd_inbound_frames initInbound
        (encodeFrames [⟨true, 1, [1, 2, 3, 4], [5, 6, 7]⟩]) =
      (initInbound,
       ([⟨true, 1, [1, 2, 3, 4], [5, 6, 7]⟩].map framePayload).join, []) :=
  c7_would_block_and_resume initInbound [129, 131] [1, 2, 3, 4, 5, 6, 7]
    [⟨true, 1, [1, 2, 3, 4], [5, 6, 7]⟩] (fun _ => rfl)
    (by
      intro f hf
      rw [List.mem_singleton] at hf
      subst hf
      exact ⟨by decide, by decide, by decide⟩)

end Werm
